import Mathlib

/-!
Shallow embedding of the phase execution engine of the markdown-agent
repository (src/runner/ChatRunner.ts and src/runner/utils.ts), together
with proofs about its round loop, message store, purge policy, tool-call
stream accumulation, tool execution and structured-response validation.

Modelling conventions:
* JS strings are Lean `String`s; a field that is optional in TypeScript and
  checked for truthiness is modelled as `String` with `""` standing for both
  "absent" and "empty" whenever the code treats the two identically.
* The permanent record `this.messages` and the context view
  `this.purgedMessages` are two `List Message` fields of `RunnerState`.
* The streaming model client is an oracle `Nat → Except String (List StreamChunk)`
  giving, for each round number, either the chunk sequence the stream yields
  or the message of the error the stream throws.
* Observer callbacks (onContentChunk, onThinkingChunk, onToolCall,
  onToolResponse, onPhaseEnd) and debug persistence are side-effect-only in
  the source; the onToolCall notifications are recorded as an `events` list
  (they are the subject of a claim), the others are dropped.
-/

deriving instance DecidableEq for Except

namespace MarkdownAgent

/-- Message roles, from the `Message` type in src/types.ts. -/
inductive Role where
  | system
  | user
  | assistant
  | tool
deriving DecidableEq, Repr

/-- A tool call, from the `ToolCall` type in src/types.ts.  The TypeScript
value nests `name` and `arguments` under a `function` key and carries a
constant `type: "function"`; the embedding flattens the nesting and drops
the constant tag. -/
structure ToolCall where
  id : String
  name : String
  arguments : String
deriving DecidableEq, Repr

/-- A conversation turn, from the `Message` type in src/types.ts. -/
structure Message where
  role : Role
  content : String
  tool_calls : Option (List ToolCall) := none
  tool_call_id : Option String := none
  name : Option String := none
deriving DecidableEq, Repr

/-- One element of a streamed `delta.tool_calls` array
(ChatRunner.ts, lines 269-287).  `id`, `name` and `arguments` use `""`
for "absent", matching the JS truthiness guards on those fields. -/
structure ToolCallDelta where
  index : Nat
  id : String := ""
  name : String := ""
  arguments : String := ""
deriving DecidableEq, Repr

/-- One chunk of the model stream (the `delta` of ChatRunner.ts, lines
252-304).  `tool_calls := none` models a chunk without a `tool_calls`
field; `some []` models a present-but-empty array (truthy in JS, so the
notification pass still runs on it). -/
structure StreamChunk where
  content : String := ""
  reasoning : String := ""
  tool_calls : Option (List ToolCallDelta) := none
deriving DecidableEq, Repr

/-- Read `toolCalls[i]` of the per-round accumulation array; `none` is a
hole or out-of-range access (JS `undefined`). -/
def getAt : List (Option ToolCall) → Nat → Option ToolCall
  | [], _ => none
  | h :: _, 0 => h
  | _ :: t, n + 1 => getAt t n

/-- Write `toolCalls[i] = v`, padding with holes when `i` is beyond the
current length, as JS array index assignment does. -/
def setAt : List (Option ToolCall) → Nat → Option ToolCall → List (Option ToolCall)
  | [], 0, v => [v]
  | [], n + 1, v => none :: setAt [] n v
  | _ :: t, 0, v => v :: t
  | h :: t, n + 1, v => h :: setAt t n v

/-- Merge one `toolCallDelta` into the accumulation array
(ChatRunner.ts, lines 270-287): create an empty slot on first sight of an
index, overwrite `id` and `function.name` when the delta carries a
non-empty one, and append `function.arguments`.  The source guards the
append with a truthiness check, which only skips appending `""`; the
unguarded append is extensionally identical. -/
def applyDelta (l : List (Option ToolCall)) (d : ToolCallDelta) : List (Option ToolCall) :=
  let tc0 : ToolCall := match getAt l d.index with
    | none => { id := "", name := "", arguments := "" }
    | some tc => tc
  let tc1 := if d.id ≠ "" then { tc0 with id := d.id } else tc0
  let tc2 := if d.name ≠ "" then { tc1 with name := d.name } else tc1
  let tc3 := { tc2 with arguments := tc2.arguments ++ d.arguments }
  setAt l d.index (some tc3)

/-- State accumulated while consuming one round's stream
(ChatRunner.ts, lines 250-304): the content accumulator (which the source
declares *outside* the round loop, line 226), the tool-call array, the
per-round `notifiedToolCallIds` set and the list of `onToolCall`
notifications fired, in order. -/
structure RoundAcc where
  content : String
  toolCalls : List (Option ToolCall)
  notified : List String
  events : List ToolCall
deriving DecidableEq, Repr

/-- The notification pass run after merging a chunk's tool-call deltas
(ChatRunner.ts, lines 289-295): walk the accumulation array in index
order and fire `onToolCall` once for every entry whose id is non-empty
and not in `notifiedToolCallIds`.  Holes are skipped (a hole never occurs
for streams whose deltas carry contiguous indices, the only ones the
source survives). -/
def notifyPass (l : List (Option ToolCall)) (notified : List String)
    (events : List ToolCall) : List String × List ToolCall :=
  match l with
  | [] => (notified, events)
  | none :: rest => notifyPass rest notified events
  | some tc :: rest =>
    if tc.id ≠ "" ∧ tc.id ∉ notified then
      notifyPass rest (notified ++ [tc.id]) (events ++ [tc])
    else
      notifyPass rest notified events

/-- Consume one stream chunk (ChatRunner.ts, lines 252-304): append the
content delta to the accumulator, then, when the chunk has a `tool_calls`
field, merge its deltas and run the notification pass.  Reasoning deltas
and usage info only feed observers/logging and are dropped. -/
def processChunk (acc : RoundAcc) (c : StreamChunk) : RoundAcc :=
  let acc1 := { acc with content := acc.content ++ c.content }
  match c.tool_calls with
  | none => acc1
  | some ds =>
    let tcs := ds.foldl applyDelta acc1.toolCalls
    let np := notifyPass tcs acc1.notified acc1.events
    { acc1 with toolCalls := tcs, notified := np.1, events := np.2 }

/-- Consume a whole round's stream (the `for await` loop of
ChatRunner.ts, lines 252-304). -/
def processChunks (acc : RoundAcc) (cs : List StreamChunk) : RoundAcc :=
  cs.foldl processChunk acc

/-- The accumulator a round's stream consumption starts from: the content
carried over from earlier rounds, everything else empty
(`notifiedToolCallIds` is cleared at the top of every round,
ChatRunner.ts line 232). -/
def roundStart (content : String) : RoundAcc :=
  { content := content, toolCalls := [], notified := [], events := [] }

/-- Does `s` start with `pat`?  (Character-list prefix test used by the
template substitution below.) -/
def leadsWith : List Char → List Char → Bool
  | [], _ => true
  | _ :: _, [] => false
  | a :: as, b :: bs => a == b && leadsWith as bs

/-- Replace every occurrence of `pat` by `rep` in `s`, scanning left to
right — the semantics of JS `String.prototype.replaceAll` for a non-empty
pattern.  `fuel` bounds the recursion (structurally) and is passed one
more than the text length, which is enough since every step consumes at
least one character when `pat` is non-empty; an empty `pat` leaves the
text unchanged (the source never substitutes an empty pattern). -/
def replListAux : Nat → List Char → List Char → List Char → List Char
  | 0, _, _, s => s
  | _ + 1, _, _, [] => []
  | fuel + 1, pat, rep, c :: rest =>
    if pat ≠ [] ∧ leadsWith pat (c :: rest) then
      rep ++ replListAux fuel pat rep ((c :: rest).drop pat.length)
    else
      c :: replListAux fuel pat rep rest

/-- JS `content.replaceAll(pat, rep)` on Lean strings. -/
def replaceAll (s pat rep : String) : String :=
  ⟨replListAux (s.data.length + 1) pat.data rep.data s.data⟩

/-- Template substitution, from `replaceTemplateVariables` in
src/runner/utils.ts: for each option entry replace `\x7b\x7bkey\x7d\x7d`
by its value, then replace `\x7b\x7bCURRENT_DATE\x7d\x7d` by the current
date.  Options are a list of key/value pairs (JS object entries in
iteration order); `String(value)` coercion is modelled by taking values
as strings, and the skipped `undefined`/`null` entries are simply absent
from the list.  The volatile current date is a parameter. -/
def replaceTemplateVariables (template : String) (options : List (String × String))
    (currentDate : String) : String :=
  let content := options.foldl
    (fun c kv => replaceAll c ("\x7b\x7b" ++ kv.1 ++ "\x7d\x7d") kv.2) template
  replaceAll content "\x7b\x7bCURRENT_DATE\x7d\x7d" currentDate

/-- A structured-response schema, from `phase.responseSchema`
(a Zod schema in the source).  `schemaText` models the rendering
`z.toJSONSchema(schema)` interpolated into the format prompt;
`validate` models the try-block of ChatRunner.ts lines 358-365 —
`JSON.parse(content)`, `schema.parse(parsed)` and
`JSON.stringify(validated)` composed, with `none` for a parse **or**
validation throw and `some canonical` for the canonical re-serialized
value. -/
structure RespSchema where
  schemaText : String
  validate : String → Option String

/-- A phase, from the `Phase` interface in src/types.ts; only the fields
the engine's control flow reads are modelled (`think`/`options` feed the
provider parameter mapping, which is out of scope, and the phase tool set
is resolved into the active tool list before the loop, so `run` below
takes the active tools directly). -/
structure Phase where
  name : String
  prompt : String
  purge : List String := []
  responseSchema : Option RespSchema := none

/-- An executable tool of the active tool set, from the `Tool` type in
src/types.ts as consumed by `executeTool` (ChatRunner.ts lines 424-470):
`parseArgs` models `JSON.parse` of the accumulated arguments text
(`.error` is a thrown SyntaxError message), and `execute` models the
async execute operation on the parsed arguments together with the
result stringification of line 445 (`.error` is a rejection message). -/
structure MTool where
  name : String
  parseArgs : String → Except String String
  execute : String → Except String String

/-- The two message stores of the runner (ChatRunner.ts lines 32-33):
the permanent record `messages` and the context view `purgedMessages`. -/
structure RunnerState where
  messages : List Message
  purged : List Message
deriving DecidableEq, Repr

/-- The tool-result message built by `executeTool` on success
(ChatRunner.ts lines 443-448). -/
def mkToolResultMsg (tc : ToolCall) (text : String) : Message :=
  { role := .tool, content := text, tool_call_id := some tc.id, name := some tc.name }

/-- The diagnostic content of the tool-result message built by
`executeTool` on failure (ChatRunner.ts lines 457-465). -/
def retryDiagnostic (cause : String) : String :=
  "Error: Tool execution failed: " ++ cause ++
    ". Please retry this tool call with corrected parameters."

/-- The try-block body of `executeTool` (ChatRunner.ts lines 431-437):
parse the accumulated arguments text, then run the tool on the parsed
arguments; either step may fail. -/
def toolOutcome (t : MTool) (tc : ToolCall) : Except String String :=
  match t.parseArgs tc.arguments with
  | .error e => .error e
  | .ok args => t.execute args

/-- Execute one tool call, from `executeTool` (ChatRunner.ts lines
424-470): resolve the tool by function name (`.error` = the thrown
"Unknown tool" — it escapes to the round loop's catch); then parse the
arguments and run the tool, and append a tool-result message — the
stringified result on success, the retry diagnostic on failure — to both
the permanent record and the context view.  Parse and execution failures
are caught and never escape. -/
def executeTool (tools : List MTool) (tc : ToolCall) (st : RunnerState) :
    Except String RunnerState :=
  match tools.find? (fun t => t.name == tc.name) with
  | none => .error ("Unknown tool: " ++ tc.name)
  | some t =>
    match toolOutcome t tc with
    | .ok result =>
      let m := mkToolResultMsg tc result
      .ok { messages := st.messages ++ [m], purged := st.purged ++ [m] }
    | .error e =>
      let m := mkToolResultMsg tc (retryDiagnostic e)
      .ok { messages := st.messages ++ [m], purged := st.purged ++ [m] }

/-- Execute every accumulated tool call of a round in order
(the `for` loop of ChatRunner.ts lines 329-332).  On a thrown
"Unknown tool" the messages already appended by the earlier calls stay
in the stores, so the state reached so far is returned with the error. -/
def execTools (tools : List MTool) (tcs : List ToolCall) (st : RunnerState) :
    RunnerState × Option String :=
  match tcs with
  | [] => (st, none)
  | tc :: rest =>
    match executeTool tools tc st with
    | .error e => (st, some e)
    | .ok st1 => execTools tools rest st1

/-- The fatal errors `run` can raise (ChatRunner.ts lines 333-342):
the wrapped round failure and the round-budget exhaustion. -/
inductive RunError where
  | apiFailed (round : Nat) (cause : String)
  | maxRoundsReached
deriving DecidableEq, Repr

/-- The constant maxRounds, ChatRunner.ts line 228. -/
def maxRounds : Nat := 30

/-- The message of the `Error` each `RunError` is thrown with
(ChatRunner.ts lines 334-336 and 341). -/
def RunError.message : RunError → String
  | .apiFailed round cause =>
    "API chat failed in round " ++ toString round ++ ": " ++ cause
  | .maxRoundsReached =>
    "Reached maximum tool execution rounds (" ++ toString maxRounds ++ ")"

/-- Ghost per-round record kept by the embedding of the round loop:
the value of the (loop-global) content accumulator after the round's
stream ended, the raw tool-call accumulation array, and the `onToolCall`
notifications fired during the round.  Purely observational — the source
keeps no such structure. -/
structure RoundInfo where
  content : String
  calls : List (Option ToolCall)
  events : List ToolCall
deriving DecidableEq, Repr

/-- The assistant message appended after a round's stream ends
(ChatRunner.ts lines 306-321): the accumulated content, plus the
accumulated tool-call array when it is non-empty (holes dropped; a hole
never occurs for contiguously indexed streams). -/
def mkAssistantMsg (acc : RoundAcc) : Message :=
  { role := .assistant,
    content := acc.content,
    tool_calls := if acc.toolCalls.length ≠ 0 then some acc.toolCalls.reduceOption else none }

/-- Result of the round loop: the stores, the final value of the content
accumulator, the per-round ghost trace, and the error thrown out of the
loop, if any. -/
structure LoopResult where
  st : RunnerState
  content : String
  round : Nat
  rounds : List RoundInfo
  err : Option RunError
deriving Repr

/-- The round loop of `run` (ChatRunner.ts lines 226-338),
`while (round < maxRounds)`:

* increment the round counter and clear `notifiedToolCallIds`;
* obtain the round's stream from the oracle — a thrown stream error is
  caught by the round's catch and wrapped as `apiFailed`;
* consume the stream (`processChunks`), continuing the content
  accumulator carried from previous rounds (the source declares it
  outside the loop and never resets it);
* if the accumulated content is non-empty or the tool-call array is
  non-empty, append one assistant message to both stores;
* if the tool-call array is empty, break;
* otherwise execute every accumulated call; a thrown "Unknown tool" is
  caught by the same catch and wrapped as `apiFailed`; then loop.

`fuel` only makes the recursion structural (so that the kernel can
evaluate the definition); `run` supplies `fuel = maxRounds` with
`round = 0`, and every recursive call decrements `fuel` exactly when it
increments `round`, so the `round < maxRounds` guard always stops the
loop strictly before the fuel runs out, exactly as the source's
`while (round < maxRounds)` does. -/
def runLoop (oracle : Nat → Except String (List StreamChunk)) (tools : List MTool)
    (fuel : Nat) (round : Nat) (content : String) (st : RunnerState) : LoopResult :=
  match fuel with
  | 0 => { st := st, content := content, round := round, rounds := [], err := none }
  | fuel + 1 =>
  if round < maxRounds then
    let r := round + 1
    match oracle r with
    | .error e => { st := st, content := content, round := r, rounds := [],
                    err := some (.apiFailed r e) }
    | .ok chunks =>
      let acc := processChunks (roundStart content) chunks
      let info : RoundInfo := { content := acc.content, calls := acc.toolCalls,
                                events := acc.events }
      let st1 :=
        if acc.content ≠ "" ∨ acc.toolCalls.length ≠ 0 then
          { messages := st.messages ++ [mkAssistantMsg acc],
            purged := st.purged ++ [mkAssistantMsg acc] }
        else st
      if acc.toolCalls.length = 0 then
        { st := st1, content := acc.content, round := r, rounds := [info], err := none }
      else
        match execTools tools acc.toolCalls.reduceOption st1 with
        | (st2, some e) => { st := st2, content := acc.content, round := r, rounds := [info],
                             err := some (.apiFailed r e) }
        | (st2, none) =>
          let res := runLoop oracle tools fuel r acc.content st2
          { res with rounds := info :: res.rounds }
  else
    { st := st, content := content, round := round, rounds := [], err := none }

/-- Strip the tool-calls field from an assistant message
(the spread copy `\x7b ...message \x7d` minus `tool_calls`,
ChatRunner.ts line 404). -/
def stripToolCalls (m : Message) : Message :=
  { m with tool_calls := none }

/-- The element-wise transformation both purge loops apply
(ChatRunner.ts lines 391-407 and 410-418): drop every tool-role message,
replace every assistant message that carries a tool-calls field (any
array, even empty, is truthy) by a stripped copy, and keep everything
else.  The source iterates indices from the end down to the segment
start, splicing or replacing in place; since removing or replacing the
element at index `i` leaves all indices below `i` untouched, the backward
in-place loop computes exactly this element-wise pass. -/
def purgeSeg : List Message → List Message
  | [] => []
  | m :: rest =>
    if m.role = .tool then purgeSeg rest
    else if m.role = .assistant ∧ m.tool_calls ≠ none then stripToolCalls m :: purgeSeg rest
    else m :: purgeSeg rest

/-- Source method purgeToolCallsFromPhase (ChatRunner.ts lines 389-408): apply the
purge pass to the context view from `startPurgedMessageCount` on,
leaving earlier indices alone. -/
def purgeToolCallsFromPhase (startPurgedMessageCount : Nat) (purged : List Message) :
    List Message :=
  purged.take startPurgedMessageCount ++ purgeSeg (purged.drop startPurgedMessageCount)

/-- Source method purgeAllToolCalls (ChatRunner.ts lines 409-419): the same pass over
the whole context view. -/
def purgeAllToolCalls (purged : List Message) : List Message :=
  purgeSeg purged

/-- Rewrite the content of the last message of a store when that message
is an assistant message (ChatRunner.ts lines 363-366). -/
def updateLastContent (msgs : List Message) (c : String) : List Message :=
  match msgs.getLast? with
  | some m => if m.role = .assistant then msgs.dropLast ++ [{ m with content := c }] else msgs
  | none => msgs

/-- Structured-response validation (ChatRunner.ts lines 356-377): when
the phase declares a response schema and the content accumulator is
non-empty, try to parse and validate; on success overwrite the content
of the last message of the permanent record if it is an assistant
message; on failure just log — the state is unchanged and nothing is
thrown.  In the source the overwritten message object is the very object
the context view holds at its end (both stores push the same reference),
so the rewrite is visible in both; the embedding mirrors the aliasing by
rewriting the context view's last message exactly when it is the same
message value as the permanent record's last. -/
def applyValidation (phase : Phase) (content : String) (st : RunnerState) : RunnerState :=
  match phase.responseSchema with
  | none => st
  | some sch =>
    if content ≠ "" then
      match sch.validate content with
      | none => st
      | some canonical =>
        { messages := updateLastContent st.messages canonical,
          purged :=
            if st.purged.getLast? = st.messages.getLast? then
              updateLastContent st.purged canonical
            else st.purged }
    else st

/-- Configuration of a run, from `ChatRunnerConfig` (ChatRunner.ts lines
12-29) restricted to what the control flow reads: the system prompt, the
template options, the volatile current date, and the active tool set
(the source picks phase tools over config tools before the loop; `run`
takes the already-selected list). -/
structure RunConfig where
  systemPrompt : String
  templateOptions : List (String × String)
  currentDate : String
  tools : List MTool

/-- What a call to `run` produces: the runner's stores after the call
(they persist on the object even when `run` throws), the ghost round
trace, and either the newly appended permanent-record messages or the
error thrown. -/
structure RunOutcome where
  st : RunnerState
  rounds : List RoundInfo
  result : Except RunError (List Message)

/-- The format prompt appended to the user prompt when the phase declares
a response schema (ChatRunner.ts lines 165-170); `""` otherwise. -/
def mkFormatPrompt (phase : Phase) : String :=
  match phase.responseSchema with
  | none => ""
  | some sch =>
    "\n--------\nRespond in the following format. Respond ONLY with a JSON object, no wrappers or commentary.\n"
      ++ sch.schemaText

/-- The content of the user message `run` appends
(ChatRunner.ts line 172). -/
def mkUserContent (cfg : RunConfig) (phase : Phase) : String :=
  replaceTemplateVariables phase.prompt cfg.templateOptions cfg.currentDate
    ++ "\n\n" ++ mkFormatPrompt phase

/-- Source method run(phase) (ChatRunner.ts lines 155-383):

1. render the system and user prompts (template substitution), and build
   the user content as rendered prompt + blank line + format prompt;
2. record the starting lengths of both stores;
3. if the permanent record is empty, append the rendered system message
   to both stores;
4. append the user message to both stores;
5. run the round loop (content accumulator starts at `""`, round at 0);
   a thrown round error propagates (the stores keep what was appended);
6. throw `maxRoundsReached` if the loop left the counter at `maxRounds`;
7. apply the purge directives, in source order `tool-calls`,
   `all-tool-calls`, `previous-messages`, to the context view only;
8. run structured-response validation;
9. return the permanent-record messages appended since step 2.

Model/provider selection, option mapping, debug persistence and
observer callbacks have no effect on this state and are omitted.
The steps are factored into `initState` (3-4), `loopOf` (5),
`applyPurges` (7) and `applyValidation` (8); `run` itself glues them and
does steps 2, 6 and 9. -/
def userMessageOf (cfg : RunConfig) (phase : Phase) : Message :=
  { role := .user, content := mkUserContent cfg phase }

/-- Steps 3-4 of `run` (ChatRunner.ts lines 178-195): append the system
message to both stores when the permanent record is empty, then append
the user message to both. -/
def initState (cfg : RunConfig) (phase : Phase) (st0 : RunnerState) : RunnerState :=
  let st1 :=
    if st0.messages.length = 0 then
      let systemMessage : Message :=
        { role := .system,
          content := replaceTemplateVariables cfg.systemPrompt cfg.templateOptions
            cfg.currentDate }
      { messages := st0.messages ++ [systemMessage], purged := st0.purged ++ [systemMessage] }
    else st0
  { messages := st1.messages ++ [userMessageOf cfg phase],
    purged := st1.purged ++ [userMessageOf cfg phase] }

/-- The round loop of a `run` call, started as `run` starts it. -/
def loopOf (cfg : RunConfig) (phase : Phase)
    (oracle : Nat → Except String (List StreamChunk)) (st0 : RunnerState) : LoopResult :=
  runLoop oracle cfg.tools maxRounds 0 "" (initState cfg phase st0)

/-- The purge step of `run` (ChatRunner.ts lines 344-354), applied to the
context view only, in source order. -/
def applyPurges (phase : Phase) (startPurgedMessageCount : Nat)
    (purged : List Message) : List Message :=
  let purged1 :=
    if "tool-calls" ∈ phase.purge then
      purgeToolCallsFromPhase startPurgedMessageCount purged
    else purged
  let purged2 := if "all-tool-calls" ∈ phase.purge then purgeAllToolCalls purged1 else purged1
  if "previous-messages" ∈ phase.purge then purged2.drop startPurgedMessageCount
  else purged2

def run (cfg : RunConfig) (phase : Phase)
    (oracle : Nat → Except String (List StreamChunk)) (st0 : RunnerState) : RunOutcome :=
  let startMessageCount := st0.messages.length
  let startPurgedMessageCount := st0.purged.length
  let lr := loopOf cfg phase oracle st0
  match lr.err with
  | some e => { st := lr.st, rounds := lr.rounds, result := .error e }
  | none =>
    if maxRounds ≤ lr.round then
      { st := lr.st, rounds := lr.rounds, result := .error .maxRoundsReached }
    else
      let purged3 := applyPurges phase startPurgedMessageCount lr.st.purged
      let stV := applyValidation phase lr.content { messages := lr.st.messages, purged := purged3 }
      { st := stV, rounds := lr.rounds, result := .ok (stV.messages.drop startMessageCount) }

/-!  Observational helpers used to state the claims; none of them is part
of the embedded program. -/

/-- The arguments text of the accumulated tool call at stream index `i`
(`""` when no call has been created at `i`). -/
def argsAt (l : List (Option ToolCall)) (i : Nat) : String :=
  match getAt l i with
  | none => ""
  | some tc => tc.arguments

/-- Concatenation of a list of strings, in order. -/
def catStrs : List String → String
  | [] => ""
  | s :: rest => s ++ catStrs rest

/-- Concatenation, in arrival order, of the argument deltas delivered for
stream index `i`. -/
def deltaArgsFor (i : Nat) (ds : List ToolCallDelta) : String :=
  catStrs ((ds.filter (fun d => d.index == i)).map (fun d => d.arguments))

/-- All tool-call deltas of a chunk sequence, in arrival order. -/
def allDeltas (cs : List StreamChunk) : List ToolCallDelta :=
  (cs.map (fun c => c.tool_calls.getD [])).flatten

/-- The `onToolCall` notifications a round's chunk sequence produces,
starting (as every round does) from an empty notified set. -/
def roundEvents (cs : List StreamChunk) : List ToolCall :=
  (processChunks (roundStart "") cs).events

/-- Does the chunk get the stream past "produced nothing", i.e. does it
carry a non-empty content delta or any tool-call delta? -/
def chunkProduced (c : StreamChunk) : Bool :=
  c.content != "" || c.tool_calls.isSome

/-- Did a round's stream produce content or tool calls? -/
def streamProduced (cs : List StreamChunk) : Bool :=
  cs.any chunkProduced

/-- Bool test: is `pat` a contiguous substring of `s` (character-wise)? -/
def chListSub (pat : List Char) : List Char → Bool
  | [] => leadsWith pat []
  | c :: rest => leadsWith pat (c :: rest) || chListSub pat rest

/-- Bool test: does the string `hay` contain `needle` as a substring? -/
def strHas (hay needle : String) : Bool :=
  chListSub needle.data hay.data

/-- An assistant message with plain content and no tool calls. -/
def assistantMsgOf (c : String) : Message :=
  { role := .assistant, content := c }

/-!  Concrete fixtures used by counterexamples and witnesses. -/

/-- A tool that always succeeds. -/
def tTool : MTool :=
  { name := "t", parseArgs := fun _ => .ok "", execute := fun _ => .ok "r" }

/-- A tool whose arguments never parse as JSON. -/
def tBadJson : MTool :=
  { name := "b", parseArgs := fun _ => .error "Unexpected token", execute := fun a => .ok a }

def emptyState : RunnerState := { messages := [], purged := [] }

def cfgX : RunConfig :=
  { systemPrompt := "s", templateOptions := [], currentDate := "d", tools := [tTool] }

def phaseX : Phase := { name := "p1", prompt := "q" }

/-- A chunk delivering one complete tool-call fragment for `tTool`. -/
def callChunk : StreamChunk :=
  { tool_calls := some [{ index := 0, id := "c1", name := "t", arguments := "" }] }

/-- Round 1 produces content and a tool call; every later round produces
an empty stream. -/
def oracleC1 : Nat → Except String (List StreamChunk)
  | 1 => .ok [{ content := "x" }, callChunk]
  | _ => .ok []

/-- Rounds 1-29 request a tool call; round 30 produces an empty stream
(the model stops requesting tools in round 30). -/
def oracleC2 : Nat → Except String (List StreamChunk) :=
  fun r => if r ≤ 29 then .ok [callChunk] else .ok []

/-- Round 1 requests a tool named "foo" that is not in the tool set. -/
def oracleC9 : Nat → Except String (List StreamChunk)
  | 1 => .ok [{ tool_calls := some [{ index := 0, id := "c1", name := "foo" }] }]
  | _ => .ok []

def phaseC9 : Phase := { name := "analysis", prompt := "q" }

/-- A pre-existing context message standing for an earlier phase. -/
def mPrior : Message := { role := .user, content := "old" }

def statePrior : RunnerState := { messages := [mPrior], purged := [mPrior] }

/-- A phase combining the `tool-calls` purge with `previous-messages`. -/
def phaseC4cex : Phase := { name := "p4", prompt := "q", purge := ["tool-calls", "previous-messages"] }

/-- A phase with the `tool-calls` purge alone. -/
def phaseC4 : Phase := { name := "p4", prompt := "q", purge := ["tool-calls"] }

/-- A schema that accepts exactly the content "x", canonicalized to
"CANON". -/
def schemaC7 : RespSchema :=
  { schemaText := "S", validate := fun s => if s == "x" then some "CANON" else none }

def phaseC7 : Phase := { name := "p7", prompt := "q", responseSchema := some schemaC7 }

/-- Round 1 produces only the content "x". -/
def oracleC7 : Nat → Except String (List StreamChunk)
  | 1 => .ok [{ content := "x" }]
  | _ => .ok []

/-- A tool call addressed to the failing tool `tBadJson`. -/
def tcBad : ToolCall := { id := "c9", name := "b", arguments := "not json" }

/-!  Lemmas about the accumulation array. -/

theorem getAt_setAt_self (i : Nat) (l : List (Option ToolCall)) (v : Option ToolCall) :
    getAt (setAt l i v) i = v := by
  induction i generalizing l with
  | zero => cases l <;> rfl
  | succ n ih => cases l <;> simp [setAt, getAt, ih]

theorem getAt_setAt_ne (i j : Nat) (l : List (Option ToolCall)) (v : Option ToolCall)
    (h : i ≠ j) : getAt (setAt l j v) i = getAt l i := by
  induction j generalizing l i with
  | zero =>
    cases l with
    | nil => cases i with
      | zero => exact absurd rfl h
      | succ n => rfl
    | cons a t => cases i with
      | zero => exact absurd rfl h
      | succ n => rfl
  | succ m ih =>
    cases l with
    | nil => cases i with
      | zero => rfl
      | succ n => simpa [setAt, getAt] using ih n [] (by omega)
    | cons a t => cases i with
      | zero => rfl
      | succ n => simpa [setAt, getAt] using ih n t (by omega)

theorem setAt_setAt (i : Nat) (l : List (Option ToolCall)) (v w : Option ToolCall) :
    setAt (setAt l i v) i w = setAt l i w := by
  induction i generalizing l with
  | zero => cases l <;> rfl
  | succ n ih => cases l <;> simp [setAt, ih]

theorem argsAt_applyDelta (l : List (Option ToolCall)) (d : ToolCallDelta) (i : Nat) :
    argsAt (applyDelta l d) i =
      if d.index = i then argsAt l i ++ d.arguments else argsAt l i := by
  by_cases hi : d.index = i
  · subst hi
    rw [if_pos rfl]
    simp only [applyDelta, argsAt, getAt_setAt_self]
    cases h : getAt l d.index <;> split_ifs <;> simp [h]
  · rw [if_neg hi]
    simp only [applyDelta, argsAt]
    rw [getAt_setAt_ne i d.index _ _ (fun hh => hi hh.symm)]

theorem argsAt_foldl (ds : List ToolCallDelta) (l : List (Option ToolCall)) (i : Nat) :
    argsAt (ds.foldl applyDelta l) i = argsAt l i ++ deltaArgsFor i ds := by
  induction ds generalizing l with
  | nil => simp [deltaArgsFor, catStrs]
  | cons d ds ih =>
    rw [List.foldl_cons, ih, argsAt_applyDelta]
    by_cases hi : d.index = i
    · simp [deltaArgsFor, hi, catStrs, String.append_assoc]
    · simp [deltaArgsFor, hi, catStrs, fun h => hi (by exact_mod_cast h)]

theorem processChunks_toolCalls (cs : List StreamChunk) (acc : RoundAcc) :
    (processChunks acc cs).toolCalls = (allDeltas cs).foldl applyDelta acc.toolCalls := by
  induction cs generalizing acc with
  | nil => simp [processChunks, allDeltas]
  | cons c cs ih =>
    show (processChunks (processChunk acc c) cs).toolCalls = _
    rw [ih]
    cases h : c.tool_calls <;>
      simp [processChunk, h, allDeltas, List.foldl_append]

/-- C5: for every stream of tool-call fragments the accumulated ToolCall
at each index has an arguments string equal to the concatenation, in
arrival order, of all argument deltas delivered for that index; and
delivering an argument string in one fragment or split into two
fragments at the same index yields the identical accumulation array, so
any chunking of the same concatenation accumulates identically. -/
theorem c5_tool_call_argument_accumulation :
    (∀ (cs : List StreamChunk) (content : String) (i : Nat),
      argsAt (processChunks (roundStart content) cs).toolCalls i
        = deltaArgsFor i (allDeltas cs))
  ∧ (∀ (l : List (Option ToolCall)) (i : Nat) (id nm a b : String),
      applyDelta (applyDelta l { index := i, id := id, name := nm, arguments := a })
          { index := i, id := "", name := "", arguments := b }
        = applyDelta l { index := i, id := id, name := nm, arguments := a ++ b }) := by
  constructor
  · intro cs content i
    rw [processChunks_toolCalls, argsAt_foldl]
    simp [roundStart, argsAt, getAt]
  · intro l i id nm a b
    simp only [applyDelta, getAt_setAt_self, setAt_setAt]
    split_ifs <;> simp_all [String.append_assoc]

/-!  Lemmas about the notification pass. -/

theorem notifyPass_notified_mono (l : List (Option ToolCall)) (n : List String)
    (e : List ToolCall) (s : String) (h : s ∈ n) : s ∈ (notifyPass l n e).1 := by
  induction l generalizing n e with
  | nil => exact h
  | cons o rest ih =>
    cases o with
    | none => exact ih _ _ h
    | some tc =>
      by_cases hc : tc.id ≠ "" ∧ tc.id ∉ n
      · simp only [notifyPass, if_pos hc]
        exact ih _ _ (by simp [h])
      · simp only [notifyPass, if_neg hc]
        exact ih _ _ h

theorem notifyPass_covers (l : List (Option ToolCall)) (n : List String)
    (e : List ToolCall) (tc : ToolCall) (hm : some tc ∈ l) (hid : tc.id ≠ "") :
    tc.id ∈ (notifyPass l n e).1 := by
  induction l generalizing n e with
  | nil => simp at hm
  | cons o rest ih =>
    rcases List.mem_cons.mp hm with h | h
    · subst h
      by_cases hc : tc.id ≠ "" ∧ tc.id ∉ n
      · simp only [notifyPass, if_pos hc]
        exact notifyPass_notified_mono _ _ _ _ (by simp)
      · have hn : tc.id ∈ n := by
          by_contra hx
          exact hc ⟨hid, hx⟩
        simp only [notifyPass, if_neg hc]
        exact notifyPass_notified_mono _ _ _ _ hn
    · cases o with
      | none => exact ih _ _ h
      | some tc2 =>
        by_cases hc : tc2.id ≠ "" ∧ tc2.id ∉ n
        · simp only [notifyPass, if_pos hc]
          exact ih _ _ h
        · simp only [notifyPass, if_neg hc]
          exact ih _ _ h

theorem notifyPass_sync (l : List (Option ToolCall)) (n : List String) (e : List ToolCall)
    (hs : ∀ s, s ∈ n ↔ s ∈ e.map ToolCall.id) :
    ∀ s, s ∈ (notifyPass l n e).1 ↔ s ∈ (notifyPass l n e).2.map ToolCall.id := by
  induction l generalizing n e with
  | nil => exact hs
  | cons o rest ih =>
    cases o with
    | none => exact ih _ _ hs
    | some tc =>
      by_cases hc : tc.id ≠ "" ∧ tc.id ∉ n
      · simp only [notifyPass, if_pos hc]
        refine ih _ _ (fun s => ?_)
        simp [hs s]
      · simp only [notifyPass, if_neg hc]
        exact ih _ _ hs

theorem notifyPass_nodup (l : List (Option ToolCall)) (n : List String) (e : List ToolCall)
    (hs : ∀ s, s ∈ n ↔ s ∈ e.map ToolCall.id) (hn : (e.map ToolCall.id).Nodup) :
    ((notifyPass l n e).2.map ToolCall.id).Nodup := by
  induction l generalizing n e with
  | nil => exact hn
  | cons o rest ih =>
    cases o with
    | none => exact ih _ _ hs hn
    | some tc =>
      by_cases hc : tc.id ≠ "" ∧ tc.id ∉ n
      · simp only [notifyPass, if_pos hc]
        refine ih _ _ (fun s => by simp [hs s]) ?_
        have hni : tc.id ∉ e.map ToolCall.id := fun hx => hc.2 ((hs tc.id).mpr hx)
        simp [List.nodup_append, hn, hni, List.disjoint_left]
      · simp only [notifyPass, if_neg hc]
        exact ih _ _ hs hn

theorem getAt_mem (l : List (Option ToolCall)) (i : Nat) (tc : ToolCall)
    (h : getAt l i = some tc) : some tc ∈ l := by
  induction l generalizing i with
  | nil => simp [getAt] at h
  | cons o rest ih =>
    cases i with
    | zero => simp_all [getAt]
    | succ n => exact List.mem_cons_of_mem _ (ih n h)

theorem processChunk_sync_nodup (acc : RoundAcc) (c : StreamChunk)
    (hs : ∀ s, s ∈ acc.notified ↔ s ∈ acc.events.map ToolCall.id)
    (hn : (acc.events.map ToolCall.id).Nodup) :
    (∀ s, s ∈ (processChunk acc c).notified ↔ s ∈ (processChunk acc c).events.map ToolCall.id)
    ∧ ((processChunk acc c).events.map ToolCall.id).Nodup := by
  cases h : c.tool_calls with
  | none =>
    simp only [processChunk, h]
    exact ⟨hs, hn⟩
  | some ds =>
    simp only [processChunk, h]
    exact ⟨notifyPass_sync _ _ _ hs, notifyPass_nodup _ _ _ hs hn⟩

theorem processChunk_covers (acc : RoundAcc) (c : StreamChunk)
    (hcov : ∀ i tc, getAt acc.toolCalls i = some tc → tc.id ≠ "" → tc.id ∈ acc.notified) :
    ∀ i tc, getAt (processChunk acc c).toolCalls i = some tc → tc.id ≠ "" →
      tc.id ∈ (processChunk acc c).notified := by
  intro i tc hg hid
  cases h : c.tool_calls with
  | none =>
    simp only [processChunk, h] at hg ⊢
    exact hcov i tc hg hid
  | some ds =>
    simp only [processChunk, h] at hg ⊢
    exact notifyPass_covers _ _ _ _ (getAt_mem _ i _ hg) hid

theorem processChunks_sync_nodup (cs : List StreamChunk) (acc : RoundAcc)
    (hs : ∀ s, s ∈ acc.notified ↔ s ∈ acc.events.map ToolCall.id)
    (hn : (acc.events.map ToolCall.id).Nodup) :
    (∀ s, s ∈ (processChunks acc cs).notified ↔
        s ∈ (processChunks acc cs).events.map ToolCall.id)
    ∧ ((processChunks acc cs).events.map ToolCall.id).Nodup := by
  induction cs generalizing acc with
  | nil => exact ⟨hs, hn⟩
  | cons c cs ih =>
    have h1 := processChunk_sync_nodup acc c hs hn
    exact ih (processChunk acc c) h1.1 h1.2

theorem processChunks_covers (cs : List StreamChunk) (acc : RoundAcc)
    (hcov : ∀ i tc, getAt acc.toolCalls i = some tc → tc.id ≠ "" → tc.id ∈ acc.notified) :
    ∀ i tc, getAt (processChunks acc cs).toolCalls i = some tc → tc.id ≠ "" →
      tc.id ∈ (processChunks acc cs).notified := by
  induction cs generalizing acc with
  | nil => exact hcov
  | cons c cs ih => exact ih (processChunk acc c) (processChunk_covers acc c hcov)

theorem processChunk_content_irrel (a1 a2 : RoundAcc) (c : StreamChunk)
    (ht : a1.toolCalls = a2.toolCalls) (hn : a1.notified = a2.notified)
    (he : a1.events = a2.events) :
    (processChunk a1 c).toolCalls = (processChunk a2 c).toolCalls
    ∧ (processChunk a1 c).notified = (processChunk a2 c).notified
    ∧ (processChunk a1 c).events = (processChunk a2 c).events := by
  cases h : c.tool_calls <;> simp [processChunk, h, ht, hn, he]

theorem processChunks_content_irrel (cs : List StreamChunk) (a1 a2 : RoundAcc)
    (ht : a1.toolCalls = a2.toolCalls) (hn : a1.notified = a2.notified)
    (he : a1.events = a2.events) :
    (processChunks a1 cs).toolCalls = (processChunks a2 cs).toolCalls
    ∧ (processChunks a1 cs).notified = (processChunks a2 cs).notified
    ∧ (processChunks a1 cs).events = (processChunks a2 cs).events := by
  induction cs generalizing a1 a2 with
  | nil => exact ⟨ht, hn, he⟩
  | cons c cs ih =>
    have h1 := processChunk_content_irrel a1 a2 c ht hn he
    exact ih (processChunk a1 c) (processChunk a2 c) h1.1 h1.2.1 h1.2.2

/-!  Lemmas about tool execution. -/

theorem executeTool_ok_shape (tools : List MTool) (tc : ToolCall) (st st' : RunnerState)
    (h : executeTool tools tc st = .ok st') :
    ∃ m, m.role = .tool ∧ st'.messages = st.messages ++ [m]
      ∧ st'.purged = st.purged ++ [m] := by
  cases hf : tools.find? (fun t => t.name == tc.name) with
  | none => simp [executeTool, hf] at h
  | some t =>
    simp only [executeTool, hf] at h
    cases ho : toolOutcome t tc with
    | ok result =>
      simp only [ho, Except.ok.injEq] at h
      exact ⟨mkToolResultMsg tc result, rfl, by rw [← h], by rw [← h]⟩
    | error e =>
      simp only [ho, Except.ok.injEq] at h
      exact ⟨mkToolResultMsg tc (retryDiagnostic e), rfl, by rw [← h], by rw [← h]⟩

theorem execTools_append (tools : List MTool) (tcs : List ToolCall) (st : RunnerState) :
    ∃ Δ, (execTools tools tcs st).1.messages = st.messages ++ Δ
      ∧ (execTools tools tcs st).1.purged = st.purged ++ Δ
      ∧ ∀ m ∈ Δ, m.role = .tool := by
  induction tcs generalizing st with
  | nil => exact ⟨[], by simp [execTools], by simp [execTools], by simp⟩
  | cons tc rest ih =>
    simp only [execTools]
    cases hx : executeTool tools tc st with
    | error e => exact ⟨[], by simp, by simp, by simp⟩
    | ok st1 =>
      obtain ⟨m, hm, hm1, hm2⟩ := executeTool_ok_shape tools tc st st1 hx
      obtain ⟨Δ, h1, h2, h3⟩ := ih st1
      refine ⟨m :: Δ, ?_, ?_, ?_⟩
      · simp [h1, hm1]
      · simp [h2, hm2]
      · intro x hxm
        rcases List.mem_cons.mp hxm with h | h
        · exact h ▸ hm
        · exact h3 x h


/-!  Lemmas about the round loop, by induction on the structural fuel. -/

theorem runLoop_append (oracle : Nat → Except String (List StreamChunk)) (tools : List MTool)
    (fuel round : Nat) (content : String) (st : RunnerState) :
    ∃ Δ, (runLoop oracle tools fuel round content st).st.messages = st.messages ++ Δ
      ∧ (runLoop oracle tools fuel round content st).st.purged = st.purged ++ Δ := by
  induction fuel generalizing round content st with
  | zero => exact ⟨[], by simp [runLoop], by simp [runLoop]⟩
  | succ fuel ih =>
    by_cases hr : round < maxRounds
    · simp only [runLoop, if_pos hr]
      cases ho : oracle (round + 1) with
      | error e => exact ⟨[], by simp [ho], by simp [ho]⟩
      | ok chunks =>
        simp only [ho]
        set acc := processChunks (roundStart content) chunks with hacc
        set st1 := if acc.content ≠ "" ∨ acc.toolCalls.length ≠ 0 then
            { messages := st.messages ++ [mkAssistantMsg acc],
              purged := st.purged ++ [mkAssistantMsg acc] }
          else st with hst1
        have hst1d : ∃ Δ1, st1.messages = st.messages ++ Δ1 ∧ st1.purged = st.purged ++ Δ1 := by
          rw [hst1]
          split_ifs with hc
          · exact ⟨[mkAssistantMsg acc], rfl, rfl⟩
          · exact ⟨[], by simp, by simp⟩
        obtain ⟨d1, hd1m, hd1p⟩ := hst1d
        by_cases hl : acc.toolCalls.length = 0
        · rw [if_pos hl]
          exact ⟨d1, hd1m, hd1p⟩
        · rw [if_neg hl]
          obtain ⟨d2, hd2m, hd2p, _⟩ := execTools_append tools acc.toolCalls.reduceOption st1
          rcases hex : execTools tools acc.toolCalls.reduceOption st1 with ⟨st2, oe⟩
          rw [hex] at hd2m hd2p
          dsimp only at hd2m hd2p
          cases oe with
          | some e =>
            exact ⟨d1 ++ d2, by simp [hd2m, hd1m], by simp [hd2p, hd1p]⟩
          | none =>
            obtain ⟨d3, hd3m, hd3p⟩ := ih (round + 1) acc.content st2
            exact ⟨d1 ++ d2 ++ d3,
              by show (runLoop oracle tools fuel (round + 1) acc.content st2).st.messages = _
                 rw [hd3m, hd2m, hd1m]; simp,
              by show (runLoop oracle tools fuel (round + 1) acc.content st2).st.purged = _
                 rw [hd3p, hd2p, hd1p]; simp⟩
    · simp only [runLoop, if_neg hr]
      exact ⟨[], by simp, by simp⟩

theorem runLoop_assistant_count (oracle : Nat → Except String (List StreamChunk))
    (tools : List MTool) (fuel round : Nat) (content : String) (st : RunnerState) :
    (runLoop oracle tools fuel round content st).st.messages.countP
        (fun m => m.role == Role.assistant)
      = st.messages.countP (fun m => m.role == Role.assistant)
        + (runLoop oracle tools fuel round content st).rounds.countP
            (fun ri => ri.content != "" || !ri.calls.isEmpty) := by
  induction fuel generalizing round content st with
  | zero => simp [runLoop]
  | succ fuel ih =>
    by_cases hr : round < maxRounds
    · simp only [runLoop, if_pos hr]
      cases ho : oracle (round + 1) with
      | error e => simp [ho]
      | ok chunks =>
        simp only [ho]
        set acc := processChunks (roundStart content) chunks with hacc
        set st1 := if acc.content ≠ "" ∨ acc.toolCalls.length ≠ 0 then
            { messages := st.messages ++ [mkAssistantMsg acc],
              purged := st.purged ++ [mkAssistantMsg acc] }
          else st with hst1
        have hiff : (acc.content ≠ "" ∨ acc.toolCalls.length ≠ 0)
            ↔ (acc.content != "" || !acc.toolCalls.isEmpty) = true := by
          simp [List.isEmpty_iff, List.length_eq_zero]
        have hst1c : st1.messages.countP (fun m => m.role == Role.assistant)
            = st.messages.countP (fun m => m.role == Role.assistant)
              + (if acc.content != "" || !acc.toolCalls.isEmpty then 1 else 0) := by
          rw [hst1]
          by_cases hc : acc.content ≠ "" ∨ acc.toolCalls.length ≠ 0
          · rw [if_pos hc, if_pos (hiff.mp hc)]
            simp [List.countP_append, List.countP_cons, mkAssistantMsg]
          · rw [if_neg hc, if_neg (fun hx => hc (hiff.mpr hx))]
            simp
        by_cases hl : acc.toolCalls.length = 0
        · rw [if_pos hl]
          simp only [List.countP_cons, List.countP_nil]
          rw [hst1c]
          omega
        · rw [if_neg hl]
          obtain ⟨d2, hd2m, _, hd2t⟩ := execTools_append tools acc.toolCalls.reduceOption st1
          rcases hex : execTools tools acc.toolCalls.reduceOption st1 with ⟨st2, oe⟩
          rw [hex] at hd2m
          dsimp only at hd2m
          have hd2z : d2.countP (fun m => m.role == Role.assistant) = 0 := by
            rw [List.countP_eq_zero]
            intro m hm
            simp [hd2t m hm]
          have hprod : (acc.content != "" || !acc.toolCalls.isEmpty) = true := by
            have hne : acc.toolCalls.isEmpty = false := by
              cases hM : acc.toolCalls with
              | nil => exact absurd (by simp [hM]) hl
              | cons a t => simp
            simp [hne]
          cases oe with
          | some e =>
            dsimp only
            rw [hd2m, List.countP_append, hd2z, hst1c]
            simp [hprod]
          | none =>
            dsimp only
            rw [List.countP_cons]
            have := ih (round + 1) acc.content st2
            rw [this, hd2m, List.countP_append, hd2z, hst1c]
            simp [hprod]
            omega
    · simp [runLoop, if_neg hr]

theorem runLoop_round_err (oracle : Nat → Except String (List StreamChunk))
    (tools : List MTool) (fuel round : Nat) (content : String) (st : RunnerState) :
    ((runLoop oracle tools fuel round content st).err = none →
      (runLoop oracle tools fuel round content st).round
        = round + (runLoop oracle tools fuel round content st).rounds.length)
  ∧ (round ≤ maxRounds → (runLoop oracle tools fuel round content st).round ≤ maxRounds)
  ∧ (∀ er, (runLoop oracle tools fuel round content st).err = some er →
      ∃ r c, er = .apiFailed r c ∧ round < r ∧ r ≤ maxRounds)
  ∧ (∀ i ri, (runLoop oracle tools fuel round content st).rounds.get? i = some ri →
      ri.calls = [] → (runLoop oracle tools fuel round content st).rounds.length = i + 1) := by
  induction fuel generalizing round content st with
  | zero =>
    refine ⟨by simp [runLoop], by simp [runLoop], by simp [runLoop], ?_⟩
    intro i ri h
    simp [runLoop] at h
  | succ fuel ih =>
    by_cases hr : round < maxRounds
    · simp only [runLoop, if_pos hr]
      cases ho : oracle (round + 1) with
      | error e =>
        refine ⟨by simp [ho], by simp [ho]; omega, ?_, ?_⟩
        · intro er her
          simp [ho] at her
          exact ⟨round + 1, e, her.symm, by omega, by omega⟩
        · intro i ri h
          simp [ho] at h
      | ok chunks =>
        simp only [ho]
        set acc := processChunks (roundStart content) chunks with hacc
        set st1 := if acc.content ≠ "" ∨ acc.toolCalls.length ≠ 0 then
            { messages := st.messages ++ [mkAssistantMsg acc],
              purged := st.purged ++ [mkAssistantMsg acc] }
          else st with hst1
        by_cases hl : acc.toolCalls.length = 0
        · rw [if_pos hl]
          refine ⟨by simp, by simp; omega, by simp, ?_⟩
          intro i ri h hcalls
          cases i with
          | zero => simp
          | succ n => simp at h
        · rw [if_neg hl]
          rcases hex : execTools tools acc.toolCalls.reduceOption st1 with ⟨st2, oe⟩
          cases oe with
          | some e =>
            dsimp only
            refine ⟨by simp, fun _ => by show round + 1 ≤ maxRounds; omega, ?_, ?_⟩
            · intro er her
              simp at her
              exact ⟨round + 1, e, her.symm, by omega, by omega⟩
            · intro i ri h hcalls
              cases i with
              | zero => simp
              | succ n => simp at h
          | none =>
            dsimp only
            obtain ⟨ihA, ihB, ihC, ihD⟩ := ih (round + 1) acc.content st2
            refine ⟨?_, ?_, ?_, ?_⟩
            · intro he
              rw [ihA he]
              simp
              omega
            · intro _
              exact ihB (by omega)
            · intro er her
              obtain ⟨r, c, h1, h2, h3⟩ := ihC er her
              exact ⟨r, c, h1, by omega, h3⟩
            · intro i ri h hcalls
              cases i with
              | zero =>
                simp only [List.get?_cons_zero, Option.some.injEq] at h
                have : ri.calls = acc.toolCalls := by rw [← h]
                rw [hcalls] at this
                exact absurd (by simp [← this]) hl
              | succ n =>
                simp only [List.get?_cons_succ] at h
                have := ihD n ri h hcalls
                simp [this]
    · simp only [runLoop, if_neg hr]
      refine ⟨by simp, by simp, by simp, ?_⟩
      intro i ri h
      simp at h

theorem runLoop_break_last (oracle : Nat → Except String (List StreamChunk))
    (tools : List MTool) (fuel round : Nat) (content : String) (st : RunnerState)
    (hfr : maxRounds ≤ fuel + round)
    (he : (runLoop oracle tools fuel round content st).err = none)
    (hlt : (runLoop oracle tools fuel round content st).round < maxRounds)
    (hc : (runLoop oracle tools fuel round content st).content ≠ "") :
    ∃ p q, (runLoop oracle tools fuel round content st).st.messages
        = st.messages ++ p ++ [assistantMsgOf (runLoop oracle tools fuel round content st).content]
      ∧ (runLoop oracle tools fuel round content st).st.purged
        = st.purged ++ q ++ [assistantMsgOf (runLoop oracle tools fuel round content st).content] := by
  induction fuel generalizing round content st with
  | zero =>
    simp only [runLoop] at hlt
    omega
  | succ fuel ih =>
    by_cases hr : round < maxRounds
    · simp only [runLoop, if_pos hr] at he hlt hc ⊢
      cases ho : oracle (round + 1) with
      | error e => simp [ho] at he
      | ok chunks =>
        simp only [ho] at he hlt hc ⊢
        set acc := processChunks (roundStart content) chunks with hacc
        set st1 := if acc.content ≠ "" ∨ acc.toolCalls.length ≠ 0 then
            { messages := st.messages ++ [mkAssistantMsg acc],
              purged := st.purged ++ [mkAssistantMsg acc] }
          else st with hst1
        by_cases hl : acc.toolCalls.length = 0
        · rw [if_pos hl] at he hlt hc ⊢
          simp only at hc ⊢
          have hcnd : acc.content ≠ "" ∨ acc.toolCalls.length ≠ 0 := Or.inl hc
          have hasst : mkAssistantMsg acc = assistantMsgOf acc.content := by
            simp [mkAssistantMsg, assistantMsgOf, hl]
          rw [hst1, if_pos hcnd]
          exact ⟨[], [], by simp [hasst], by simp [hasst]⟩
        · rw [if_neg hl] at he hlt hc ⊢
          rcases hex : execTools tools acc.toolCalls.reduceOption st1 with ⟨st2, oe⟩
          rw [hex] at he hlt hc
          cases oe with
          | some e => simp at he
          | none =>
            dsimp only at he hlt hc ⊢
            obtain ⟨p, q, hp, hq⟩ := ih (round + 1) acc.content st2 (by omega) he hlt hc
            obtain ⟨d2, hd2m, hd2p, _⟩ := execTools_append tools acc.toolCalls.reduceOption st1
            rw [hex] at hd2m hd2p
            dsimp only at hd2m hd2p
            obtain ⟨d1, hd1m, hd1p⟩ : ∃ d1, st1.messages = st.messages ++ d1
                ∧ st1.purged = st.purged ++ d1 := by
              rw [hst1]
              split_ifs
              · exact ⟨[mkAssistantMsg acc], rfl, rfl⟩
              · exact ⟨[], by simp, by simp⟩
            refine ⟨d1 ++ d2 ++ p, d1 ++ d2 ++ q, ?_, ?_⟩
            · rw [hp, hd2m, hd1m]; simp
            · rw [hq, hd2p, hd1p]; simp
    · simp only [runLoop, if_neg hr] at hlt
      omega

theorem runLoop_rounds_events (oracle : Nat → Except String (List StreamChunk))
    (tools : List MTool) (fuel round : Nat) (content : String) (st : RunnerState) :
    ∀ i ri, (runLoop oracle tools fuel round content st).rounds.get? i = some ri →
      ((∀ cs, oracle (round + i + 1) = .ok cs → ri.events = roundEvents cs)
       ∧ (ri.events.map ToolCall.id).Nodup
       ∧ (∀ j tc, getAt ri.calls j = some tc → tc.id ≠ "" →
           tc.id ∈ ri.events.map ToolCall.id)) := by
  induction fuel generalizing round content st with
  | zero => intro i ri h; simp [runLoop] at h
  | succ fuel ih =>
    by_cases hr : round < maxRounds
    · simp only [runLoop, if_pos hr]
      cases ho : oracle (round + 1) with
      | error e => intro i ri h; simp [ho] at h
      | ok chunks =>
        simp only [ho]
        set acc := processChunks (roundStart content) chunks with hacc
        have hsync := processChunks_sync_nodup chunks (roundStart content)
          (by simp [roundStart]) (by simp [roundStart])
        have hinfo1 : ∀ cs, oracle (round + 0 + 1) = .ok cs → acc.events = roundEvents cs := by
          intro cs hcs
          rw [Nat.add_zero, ho] at hcs
          cases hcs
          rw [hacc, roundEvents]
          exact (processChunks_content_irrel chunks (roundStart content) (roundStart "")
            rfl rfl rfl).2.2
        have hinfo2 : (acc.events.map ToolCall.id).Nodup := hsync.2
        have hinfo3 : ∀ j tc, getAt acc.toolCalls j = some tc → tc.id ≠ "" →
            tc.id ∈ acc.events.map ToolCall.id := by
          intro j tc hg hid
          have hcov := processChunks_covers chunks (roundStart content)
            (by intro j' tc' hg'; simp [roundStart, getAt] at hg') j tc hg hid
          exact (hsync.1 tc.id).mp hcov
        set st1 := if acc.content ≠ "" ∨ acc.toolCalls.length ≠ 0 then
            { messages := st.messages ++ [mkAssistantMsg acc],
              purged := st.purged ++ [mkAssistantMsg acc] }
          else st with hst1
        by_cases hl : acc.toolCalls.length = 0
        · rw [if_pos hl]
          intro i ri h
          cases i with
          | zero =>
            simp only [List.get?_cons_zero, Option.some.injEq] at h
            rw [← h]
            exact ⟨hinfo1, hinfo2, hinfo3⟩
          | succ n => simp at h
        · rw [if_neg hl]
          rcases hex : execTools tools acc.toolCalls.reduceOption st1 with ⟨st2, oe⟩
          cases oe with
          | some e =>
            dsimp only
            intro i ri h
            cases i with
            | zero =>
              simp only [List.get?_cons_zero, Option.some.injEq] at h
              rw [← h]
              exact ⟨hinfo1, hinfo2, hinfo3⟩
            | succ n => simp at h
          | none =>
            dsimp only
            intro i ri h
            cases i with
            | zero =>
              simp only [List.get?_cons_zero, Option.some.injEq] at h
              rw [← h]
              exact ⟨hinfo1, hinfo2, hinfo3⟩
            | succ n =>
              simp only [List.get?_cons_succ] at h
              obtain ⟨ha, hb, hc2⟩ := ih (round + 1) acc.content st2 n ri h
              refine ⟨?_, hb, hc2⟩
              intro cs hcs
              refine ha cs ?_
              have : round + 1 + n + 1 = round + (n + 1) + 1 := by omega
              rw [this]
              exact hcs
    · simp only [runLoop, if_neg hr]
      intro i ri h
      simp at h

/-!  Lemmas about the validation step and the glue in `run`. -/

theorem updateLastContent_cases (msgs : List Message) (c : String) :
    (updateLastContent msgs c = msgs)
  ∨ (∃ p m, msgs = p ++ [m] ∧ m.role = .assistant
      ∧ updateLastContent msgs c = p ++ [{ m with content := c }]) := by
  unfold updateLastContent
  cases h : msgs.getLast? with
  | none => exact Or.inl rfl
  | some m =>
    by_cases hr : m.role = .assistant
    · refine Or.inr ⟨msgs.dropLast, m, ?_, hr, ?_⟩
      · exact (List.dropLast_append_getLast? m h).symm
      · dsimp only
        rw [if_pos hr]
    · exact Or.inl (by dsimp only; rw [if_neg hr])

theorem applyValidation_messages_cases (phase : Phase) (content : String) (st : RunnerState) :
    ((applyValidation phase content st).messages = st.messages)
  ∨ (∃ p m c, st.messages = p ++ [m] ∧ m.role = .assistant
      ∧ (applyValidation phase content st).messages = p ++ [{ m with content := c }]) := by
  unfold applyValidation
  cases hs : phase.responseSchema with
  | none => exact Or.inl rfl
  | some sch =>
    dsimp only
    by_cases hc : content ≠ ""
    · rw [if_pos hc]
      cases hv : sch.validate content with
      | none => exact Or.inl rfl
      | some canonical =>
        rcases updateLastContent_cases st.messages canonical with h | ⟨p, m, h1, h2, h3⟩
        · exact Or.inl h
        · exact Or.inr ⟨p, m, canonical, h1, h2, h3⟩
    · rw [if_neg hc]
      exact Or.inl rfl

theorem run_rounds_eq (cfg : RunConfig) (phase : Phase)
    (oracle : Nat → Except String (List StreamChunk)) (st0 : RunnerState) :
    (run cfg phase oracle st0).rounds = (loopOf cfg phase oracle st0).rounds := by
  simp only [run]
  cases he : (loopOf cfg phase oracle st0).err with
  | some e => simp only [he]
  | none =>
    simp only [he]
    by_cases hmx : maxRounds ≤ (loopOf cfg phase oracle st0).round
    · rw [if_pos hmx]
    · rw [if_neg hmx]

theorem run_messages_cases (cfg : RunConfig) (phase : Phase)
    (oracle : Nat → Except String (List StreamChunk)) (st0 : RunnerState) :
    ((run cfg phase oracle st0).st.messages = (loopOf cfg phase oracle st0).st.messages)
  ∨ (∃ p m c, (loopOf cfg phase oracle st0).st.messages = p ++ [m] ∧ m.role = .assistant
      ∧ (run cfg phase oracle st0).st.messages = p ++ [{ m with content := c }]) := by
  simp only [run]
  cases he : (loopOf cfg phase oracle st0).err with
  | some e => exact Or.inl rfl
  | none =>
    by_cases hmx : maxRounds ≤ (loopOf cfg phase oracle st0).round
    · rw [if_pos hmx]
      exact Or.inl rfl
    · rw [if_neg hmx]
      exact applyValidation_messages_cases phase _ _

/-!  Claim C1. -/

/-- C1 counterexample: the content accumulator is declared outside the
round loop and never reset, so after round 1 produces content "x" plus a
tool call, round 2 — whose stream yields nothing at all — still appends
an assistant message (with the stale content "x") before breaking.  Two
assistant messages are appended although only one of the two executed
rounds produced content or tool calls, and the round that produced
neither did not end the loop without appending. -/
theorem c1_counterexample :
    oracleC1 1 = .ok [{ content := "x" }, callChunk]
  ∧ streamProduced [{ content := "x" }, callChunk] = true
  ∧ oracleC1 2 = .ok []
  ∧ streamProduced [] = false
  ∧ (run cfgX phaseX oracleC1 emptyState).rounds.length = 2
  ∧ (run cfgX phaseX oracleC1 emptyState).st.messages.countP
      (fun m => m.role == Role.assistant) = 2
  ∧ (run cfgX phaseX oracleC1 emptyState).st.messages.getLast? = some (assistantMsgOf "x") := by
  refine ⟨rfl, rfl, rfl, rfl, ?_, ?_, ?_⟩ <;> decide

/-- C1 (amended): the number of assistant messages `run` appends to the
permanent record equals the number of rounds in which the *accumulated*
content (the accumulator carries over from earlier rounds of the same
call) was non-empty or the round produced tool calls; and a round whose
stream produced no tool calls is always the final round of the loop. -/
theorem c1_assistant_message_count (cfg : RunConfig) (phase : Phase)
    (oracle : Nat → Except String (List StreamChunk)) (st0 : RunnerState) :
    (run cfg phase oracle st0).st.messages.countP (fun m => m.role == Role.assistant)
      = st0.messages.countP (fun m => m.role == Role.assistant)
        + (run cfg phase oracle st0).rounds.countP
            (fun ri => ri.content != "" || !ri.calls.isEmpty)
  ∧ (∀ i ri, (run cfg phase oracle st0).rounds.get? i = some ri → ri.calls = [] →
      (run cfg phase oracle st0).rounds.length = i + 1) := by
  have hinit : (initState cfg phase st0).messages.countP (fun m => m.role == Role.assistant)
      = st0.messages.countP (fun m => m.role == Role.assistant) := by
    simp only [initState]
    split_ifs <;> simp [List.countP_append, List.countP_cons, userMessageOf]
  have hl : (loopOf cfg phase oracle st0).st.messages.countP (fun m => m.role == Role.assistant)
      = st0.messages.countP (fun m => m.role == Role.assistant)
        + (loopOf cfg phase oracle st0).rounds.countP
            (fun ri => ri.content != "" || !ri.calls.isEmpty) := by
    have h := runLoop_assistant_count oracle cfg.tools maxRounds 0 "" (initState cfg phase st0)
    rw [hinit] at h
    exact h
  constructor
  · rw [run_rounds_eq]
    rcases run_messages_cases cfg phase oracle st0 with hm | ⟨p, m, c, h1, h2, h3⟩
    · rw [hm]
      exact hl
    · rw [h3]
      rw [h1, List.countP_append] at hl
      rw [List.countP_append]
      simpa [List.countP_cons] using hl
  · intro i ri hg hcalls
    rw [run_rounds_eq] at hg ⊢
    exact (runLoop_round_err oracle cfg.tools maxRounds 0 ""
      (initState cfg phase st0)).2.2.2 i ri hg hcalls

/-!  Claim C2. -/

/-- C2 counterexample: with a model that requests one tool call in each
of rounds 1-29 and stops requesting tool calls in round 30 (its stream is
empty), `run` still throws the "Reached maximum tool execution rounds"
error, although the model stopped requesting tools in a round — the
check `round >= maxRounds` fires whenever the counter reached 30, not
only when tool calls were still outstanding. -/
theorem c2_counterexample :
    oracleC2 30 = .ok []
  ∧ streamProduced [] = false
  ∧ (run cfgX phaseX oracleC2 emptyState).result = .error RunError.maxRoundsReached := by
  refine ⟨by decide, rfl, by decide⟩

/-- C2 (amended): `run` throws the maxRounds error exactly when the round
loop completed all 30 rounds without a stream/tool error — equivalently,
when rounds 1-29 all requested tool calls and round 30 ran, whether or
not round 30 still requested tool calls.  A round in which the model
stops requesting tool calls is always the last, so stopping in any round
up to 29 terminates the phase normally. -/
theorem c2_max_rounds_error_iff (cfg : RunConfig) (phase : Phase)
    (oracle : Nat → Except String (List StreamChunk)) (st0 : RunnerState) :
    ((run cfg phase oracle st0).result = .error RunError.maxRoundsReached
      ↔ ((loopOf cfg phase oracle st0).err = none
          ∧ (loopOf cfg phase oracle st0).rounds.length = maxRounds))
  ∧ (∀ i ri, (loopOf cfg phase oracle st0).rounds.get? i = some ri → ri.calls = [] →
      (loopOf cfg phase oracle st0).rounds.length = i + 1) := by
  have hre := runLoop_round_err oracle cfg.tools maxRounds 0 "" (initState cfg phase st0)
  rw [show runLoop oracle cfg.tools maxRounds 0 "" (initState cfg phase st0)
      = loopOf cfg phase oracle st0 from rfl] at hre
  constructor
  · cases he : (loopOf cfg phase oracle st0).err with
    | some er =>
      obtain ⟨r, c, herr, _, _⟩ := hre.2.2.1 er he
      constructor
      · intro hres
        simp only [run, he] at hres
        rw [herr] at hres
        exact absurd hres (by simp)
      · rintro ⟨h1, -⟩
        exact absurd h1 (by simp)
    | none =>
      have hr0 := hre.1 he
      have hle := hre.2.1 (Nat.zero_le _)
      by_cases hmx : maxRounds ≤ (loopOf cfg phase oracle st0).round
      · constructor
        · intro _
          refine ⟨rfl, ?_⟩
          omega
        · intro _
          simp only [run, he, if_pos hmx]
      · constructor
        · intro hres
          exfalso
          simp only [run, he, if_neg hmx] at hres
          exact absurd hres (by simp)
        · rintro ⟨-, hlen⟩
          exfalso
          omega
  · exact hre.2.2.2

/-!  Claim C6. -/

/-- C6: within every round of a run's loop the `onToolCall` notifications
carry pairwise distinct ids (no id fires twice in a round); each round's
notifications are exactly those computed from that round's own stream
starting from an empty notified set (the set is cleared at the top of
every round, so the de-duplication is scoped per round, not per run);
and after a round every accumulated tool call with a non-empty id has
been notified — the notification fires as soon as the id is known. -/
theorem c6_notification_dedup (cfg : RunConfig) (phase : Phase)
    (oracle : Nat → Except String (List StreamChunk)) (st0 : RunnerState) :
    (∀ ri ∈ (loopOf cfg phase oracle st0).rounds, (ri.events.map ToolCall.id).Nodup)
  ∧ (∀ i ri cs, (loopOf cfg phase oracle st0).rounds.get? i = some ri →
      oracle (i + 1) = .ok cs → ri.events = roundEvents cs)
  ∧ (∀ ri ∈ (loopOf cfg phase oracle st0).rounds, ∀ j tc, getAt ri.calls j = some tc →
      tc.id ≠ "" → tc.id ∈ ri.events.map ToolCall.id) := by
  have hev := runLoop_rounds_events oracle cfg.tools maxRounds 0 "" (initState cfg phase st0)
  refine ⟨?_, ?_, ?_⟩
  · intro ri hri
    obtain ⟨i, hi⟩ := List.mem_iff_get?.mp hri
    exact (hev i ri hi).2.1
  · intro i ri cs hg hcs
    refine (hev i ri hg).1 cs ?_
    simpa using hcs
  · intro ri hri j tc hg hid
    obtain ⟨i, hi⟩ := List.mem_iff_get?.mp hri
    exact (hev i ri hi).2.2 j tc hg hid

/-- C1 witness: the amended count equation instantiated on the concrete
two-round run of `oracleC1`, and the no-calls-round-is-last conclusion
instantiated at round index 1. -/
theorem c1_witness :
    ((run cfgX phaseX oracleC1 emptyState).st.messages.countP
        (fun m => m.role == Role.assistant)
      = emptyState.messages.countP (fun m => m.role == Role.assistant)
        + (run cfgX phaseX oracleC1 emptyState).rounds.countP
            (fun ri => ri.content != "" || !ri.calls.isEmpty))
  ∧ (run cfgX phaseX oracleC1 emptyState).rounds.length = 1 + 1 :=
  ⟨(c1_assistant_message_count cfgX phaseX oracleC1 emptyState).1,
   (c1_assistant_message_count cfgX phaseX oracleC1 emptyState).2 1
     { content := "x", calls := [], events := [] } (by decide) (by decide)⟩

/-- C2 witness: the iff applied to the concrete 30-round run, with both
hypotheses of the backward direction discharged by computation. -/
theorem c2_witness :
    (run cfgX phaseX oracleC2 emptyState).result = .error RunError.maxRoundsReached :=
  (c2_max_rounds_error_iff cfgX phaseX oracleC2 emptyState).1.mpr ⟨by decide, by decide⟩

/-- C6 witness: the per-round conclusions instantiated on round 1 of the
concrete `oracleC1` run, with the membership, indexing and oracle
hypotheses discharged by computation. -/
theorem c6_witness :
    (({ content := "x", calls := [some { id := "c1", name := "t", arguments := "" }],
        events := [{ id := "c1", name := "t", arguments := "" }] } : RoundInfo).events.map
          ToolCall.id).Nodup
  ∧ ({ content := "x", calls := [some { id := "c1", name := "t", arguments := "" }],
        events := [{ id := "c1", name := "t", arguments := "" }] } : RoundInfo).events
      = roundEvents [{ content := "x" }, callChunk] := by
  constructor
  · exact (c6_notification_dedup cfgX phaseX oracleC1 emptyState).1 _ (by decide)
  · exact (c6_notification_dedup cfgX phaseX oracleC1 emptyState).2.1 0 _
      [{ content := "x" }, callChunk] (by decide) rfl

/-!  Claim C8. -/

theorem execTools_no_throw (tools : List MTool) (tcs : List ToolCall) (st : RunnerState)
    (h : ∀ tc ∈ tcs, ∃ t, tools.find? (fun t2 => t2.name == tc.name) = some t) :
    (execTools tools tcs st).2 = none := by
  induction tcs generalizing st with
  | nil => rfl
  | cons tc rest ih =>
    obtain ⟨t, hf⟩ := h tc (by simp)
    simp only [execTools, executeTool, hf]
    cases ho : toolOutcome t tc with
    | ok r => exact ih _ (fun tc2 hm => h tc2 (by simp [hm]))
    | error e => exact ih _ (fun tc2 hm => h tc2 (by simp [hm]))

/-- C8: when a tool call's function name resolves in the active tool set,
`executeTool` never throws: it returns normally, appending exactly one
tool-role message to both the permanent record and the context view; in
particular when the arguments fail to parse as JSON or the execute
operation fails, the appended message carries the retry diagnostic text;
and a round whose tool calls all resolve finishes its execution loop
without throwing, so the round loop continues. -/
theorem c8_tool_failure_contained (tools : List MTool) (tc : ToolCall) (t : MTool)
    (st : RunnerState) (hf : tools.find? (fun t2 => t2.name == tc.name) = some t) :
    (∃ m, m.role = .tool ∧ executeTool tools tc st
        = .ok { messages := st.messages ++ [m], purged := st.purged ++ [m] })
  ∧ (∀ e, toolOutcome t tc = .error e →
      executeTool tools tc st = .ok
        { messages := st.messages ++ [mkToolResultMsg tc (retryDiagnostic e)],
          purged := st.purged ++ [mkToolResultMsg tc (retryDiagnostic e)] })
  ∧ (∀ tcs st1, (∀ tc2 ∈ tcs, ∃ t2, tools.find? (fun t3 => t3.name == tc2.name) = some t2) →
      (execTools tools tcs st1).2 = none) := by
  refine ⟨?_, ?_, fun tcs st1 hh => execTools_no_throw tools tcs st1 hh⟩
  · simp only [executeTool, hf]
    cases ho : toolOutcome t tc with
    | ok r => exact ⟨mkToolResultMsg tc r, rfl, rfl⟩
    | error e => exact ⟨mkToolResultMsg tc (retryDiagnostic e), rfl, rfl⟩
  · intro e he
    simp only [executeTool, hf, he]

/-- C8 witness: the failing-tool conclusion instantiated on a tool whose
argument parsing always throws. -/
theorem c8_witness :
    executeTool [tBadJson] tcBad emptyState = .ok
      { messages := [mkToolResultMsg tcBad (retryDiagnostic "Unexpected token")],
        purged := [mkToolResultMsg tcBad (retryDiagnostic "Unexpected token")] } :=
  (c8_tool_failure_contained [tBadJson] tcBad tBadJson emptyState rfl).2.1
    "Unexpected token" rfl

/-!  Claim C9. -/

/-- C9 counterexample: a phase named "analysis" in which the model
requests the unknown tool "foo" in round 1 makes `run` throw the error
"API chat failed in round 1: Unknown tool: foo" — the message names the
round and the cause but contains no occurrence of the phase name. -/
theorem c9_counterexample :
    phaseC9.name = "analysis"
  ∧ (run { cfgX with tools := [] } phaseC9 oracleC9 emptyState).result
      = .error (RunError.apiFailed 1 "Unknown tool: foo")
  ∧ (RunError.apiFailed 1 "Unknown tool: foo").message
      = "API chat failed in round 1: Unknown tool: foo"
  ∧ strHas (RunError.apiFailed 1 "Unknown tool: foo").message phaseC9.name = false := by
  refine ⟨rfl, by decide, rfl, by decide⟩

/-- C9 (amended): every error `run` raises is a single error that is
either the round-failure wrapper — whose message names the failing round
number (between 1 and 30) and the underlying cause message — or the
round-budget error naming the round cap; the phase name appears in
neither message. -/
theorem c9_error_message_shape (cfg : RunConfig) (phase : Phase)
    (oracle : Nat → Except String (List StreamChunk)) (st0 : RunnerState) (e : RunError)
    (h : (run cfg phase oracle st0).result = .error e) :
    (∃ r c, e = .apiFailed r c ∧ 1 ≤ r ∧ r ≤ maxRounds
      ∧ e.message = "API chat failed in round " ++ toString r ++ ": " ++ c)
  ∨ (e = .maxRoundsReached
      ∧ e.message = "Reached maximum tool execution rounds ("
          ++ toString maxRounds ++ ")") := by
  have hre := runLoop_round_err oracle cfg.tools maxRounds 0 "" (initState cfg phase st0)
  rw [show runLoop oracle cfg.tools maxRounds 0 "" (initState cfg phase st0)
      = loopOf cfg phase oracle st0 from rfl] at hre
  cases he : (loopOf cfg phase oracle st0).err with
  | some er =>
    simp only [run, he] at h
    obtain ⟨r, c, herr, h1, h2⟩ := hre.2.2.1 er he
    cases h
    exact Or.inl ⟨r, c, herr, by omega, h2, by rw [herr]; rfl⟩
  | none =>
    by_cases hmx : maxRounds ≤ (loopOf cfg phase oracle st0).round
    · simp only [run, he, if_pos hmx] at h
      cases h
      exact Or.inr ⟨rfl, rfl⟩
    · simp only [run, he, if_neg hmx] at h
      exact absurd h (by simp)

/-- C9 witness: the error-shape theorem applied to the concrete
unknown-tool run, yielding its message. -/
theorem c9_witness :
    (RunError.apiFailed 1 "Unknown tool: foo").message
      = "API chat failed in round 1: Unknown tool: foo" := by
  have h := c9_error_message_shape { cfgX with tools := [] } phaseC9 oracleC9 emptyState
    (RunError.apiFailed 1 "Unknown tool: foo") (by decide)
  rcases h with ⟨r, c, heq, -, -, hmsg⟩ | ⟨heq, -⟩
  · injection heq with hr hc
    subst hr
    subst hc
    exact hmsg
  · exact absurd heq (by simp)

/-!  Claim C3. -/

theorem initState_append (cfg : RunConfig) (phase : Phase) (st0 : RunnerState) :
    ∃ δ, δ ≠ [] ∧ (initState cfg phase st0).messages = st0.messages ++ δ
      ∧ (initState cfg phase st0).purged = st0.purged ++ δ := by
  simp only [initState]
  split_ifs with h
  · exact ⟨[Message.mk .system
        (replaceTemplateVariables cfg.systemPrompt cfg.templateOptions cfg.currentDate)
        none none none, userMessageOf cfg phase], by simp, by simp, by simp⟩
  · exact ⟨[userMessageOf cfg phase], by simp, by simp, by simp⟩

theorem applyValidation_messages_congr (ph1 ph2 : Phase) (content : String)
    (st1 st2 : RunnerState) (hs : ph1.responseSchema = ph2.responseSchema)
    (hm : st1.messages = st2.messages) :
    (applyValidation ph1 content st1).messages = (applyValidation ph2 content st2).messages := by
  unfold applyValidation
  rw [hs]
  cases ph2.responseSchema with
  | none => exact hm
  | some sch =>
    dsimp only
    by_cases hc : content ≠ ""
    · rw [if_pos hc, if_pos hc]
      cases sch.validate content with
      | none => exact hm
      | some canonical => simp [hm]
    · rw [if_neg hc, if_neg hc]
      exact hm

/-- C3: the permanent record is never mutated once appended — across any
sequence of `run` calls the record existing when `run` starts is a
prefix of the record when it finishes (whether the run succeeds or
throws); within a run the only deviation from pure appending is that
structured-response validation may rewrite the content of the last
(assistant) message of the record; and the purge directives have no
effect whatsoever on the permanent record — `run` with any purge list
produces the same permanent record. -/
theorem c3_permanent_record_immutability (cfg : RunConfig) (phase : Phase)
    (oracle : Nat → Except String (List StreamChunk)) (st0 : RunnerState) :
    ((run cfg phase oracle st0).st.messages.take st0.messages.length = st0.messages)
  ∧ ((run cfg phase oracle st0).st.messages = (loopOf cfg phase oracle st0).st.messages
      ∨ ∃ p m c, (loopOf cfg phase oracle st0).st.messages = p ++ [m] ∧ m.role = .assistant
          ∧ (run cfg phase oracle st0).st.messages = p ++ [{ m with content := c }])
  ∧ (∀ pl, (run cfg { phase with purge := pl } oracle st0).st.messages
      = (run cfg phase oracle st0).st.messages) := by
  obtain ⟨δ, hδne, hδm, hδp⟩ := initState_append cfg phase st0
  obtain ⟨Δ, hΔm, hΔp⟩ := runLoop_append oracle cfg.tools maxRounds 0 ""
    (initState cfg phase st0)
  rw [show runLoop oracle cfg.tools maxRounds 0 "" (initState cfg phase st0)
      = loopOf cfg phase oracle st0 from rfl] at hΔm hΔp
  have hloopm : (loopOf cfg phase oracle st0).st.messages = st0.messages ++ (δ ++ Δ) := by
    rw [hΔm, hδm, List.append_assoc]
  refine ⟨?_, run_messages_cases cfg phase oracle st0, ?_⟩
  · rcases run_messages_cases cfg phase oracle st0 with hm | ⟨p, m, c, h1, h2, h3⟩
    · rw [hm, hloopm]
      exact List.take_left st0.messages (δ ++ Δ)
    · have he1 : st0.messages ++ (δ ++ Δ) = p ++ [m] := by rw [← hloopm, h1]
      have hlen : st0.messages.length ≤ p.length := by
        have hll := congrArg List.length he1
        have hδlen : 0 < δ.length := List.length_pos.mpr hδne
        simp [List.length_append] at hll
        omega
      have htake := congrArg (List.take st0.messages.length) he1
      rw [List.take_left, List.take_append_of_le_length hlen] at htake
      rw [h3, List.take_append_of_le_length hlen, ← htake]
  · intro pl
    have hL : loopOf cfg { phase with purge := pl } oracle st0 = loopOf cfg phase oracle st0 :=
      rfl
    simp only [run, hL]
    cases he : (loopOf cfg phase oracle st0).err with
    | some e => rfl
    | none =>
      by_cases hmx : maxRounds ≤ (loopOf cfg phase oracle st0).round
      · simp only [if_pos hmx]
      · simp only [if_neg hmx]
        exact applyValidation_messages_congr _ _ _ _ _ rfl rfl

/-!  Claim C7. -/

theorem updateLastContent_concat (l : List Message) (m : Message) (c : String)
    (hm : m.role = .assistant) :
    updateLastContent (l ++ [m]) c = l ++ [{ m with content := c }] := by
  unfold updateLastContent
  rw [List.getLast?_concat]
  dsimp only
  rw [if_pos hm, List.dropLast_concat]

/-- C7: when the phase declares a response schema and the run's loop
terminated normally with non-empty accumulated content, the permanent
record ends in an assistant message carrying that content, and: if the
content parses and validates (the schema's validate step succeeds,
producing the canonical re-serialization), `run` overwrites the content
of that last assistant message with the canonical value; if parsing or
validation fails, the permanent record is exactly the loop's record,
unchanged; and in either case `run` returns normally — validation
failure is never fatal. -/
theorem c7_structured_response_validation (cfg : RunConfig) (phase : Phase)
    (oracle : Nat → Except String (List StreamChunk)) (st0 : RunnerState) (sch : RespSchema)
    (hs : phase.responseSchema = some sch)
    (he : (loopOf cfg phase oracle st0).err = none)
    (hr : (loopOf cfg phase oracle st0).round < maxRounds)
    (hc : (loopOf cfg phase oracle st0).content ≠ "") :
    (∀ canon, sch.validate (loopOf cfg phase oracle st0).content = some canon →
      ∃ p, (loopOf cfg phase oracle st0).st.messages
          = p ++ [assistantMsgOf (loopOf cfg phase oracle st0).content]
        ∧ (run cfg phase oracle st0).st.messages = p ++ [assistantMsgOf canon])
  ∧ (sch.validate (loopOf cfg phase oracle st0).content = none →
      (run cfg phase oracle st0).st.messages = (loopOf cfg phase oracle st0).st.messages)
  ∧ (run cfg phase oracle st0).result
      = .ok ((run cfg phase oracle st0).st.messages.drop st0.messages.length) := by
  have hbl := runLoop_break_last oracle cfg.tools maxRounds 0 "" (initState cfg phase st0)
    (by omega) he hr hc
  rw [show runLoop oracle cfg.tools maxRounds 0 "" (initState cfg phase st0)
      = loopOf cfg phase oracle st0 from rfl] at hbl
  obtain ⟨p, q, hp, hq⟩ := hbl
  have hmx : ¬ maxRounds ≤ (loopOf cfg phase oracle st0).round := by omega
  refine ⟨?_, ?_, ?_⟩
  · intro canon hv
    refine ⟨(initState cfg phase st0).messages ++ p, by simpa using hp, ?_⟩
    simp only [run, he, if_neg hmx]
    unfold applyValidation
    rw [hs]
    dsimp only
    rw [if_pos hc, hv]
    dsimp only
    rw [hp, List.append_assoc] at *
    rw [hp]
    have := updateLastContent_concat ((initState cfg phase st0).messages ++ p)
      (assistantMsgOf (loopOf cfg phase oracle st0).content) canon rfl
    simp only [List.append_assoc] at this ⊢
    rw [this]
    rfl
  · intro hv
    simp only [run, he, if_neg hmx]
    unfold applyValidation
    rw [hs]
    dsimp only
    rw [if_pos hc, hv]
  · simp only [run, he, if_neg hmx]

/-- C7 witness: the validation conclusions instantiated on a one-round
run whose content "x" validates to the canonical value "CANON": the last
assistant message of the permanent record ends up carrying "CANON", and
the run returns normally. -/
theorem c7_witness :
    (run cfgX phaseC7 oracleC7 emptyState).st.messages.getLast? = some (assistantMsgOf "CANON")
  ∧ (run cfgX phaseC7 oracleC7 emptyState).result
      = .ok ((run cfgX phaseC7 oracleC7 emptyState).st.messages.drop 0) := by
  have h := c7_structured_response_validation cfgX phaseC7 oracleC7 emptyState schemaC7
    rfl (by decide) (by decide) (by decide)
  obtain ⟨p, -, h2⟩ := h.1 "CANON" (by decide)
  exact ⟨by rw [h2]; exact List.getLast?_concat p, h.2.2⟩

/-!  Claim C4. -/

theorem purgeSeg_append (a b : List Message) :
    purgeSeg (a ++ b) = purgeSeg a ++ purgeSeg b := by
  induction a with
  | nil => rfl
  | cons m rest ih =>
    simp only [List.cons_append, purgeSeg]
    split_ifs <;> simp [ih]

theorem purgeSeg_mem (l : List Message) :
    ∀ m ∈ purgeSeg l, m.role ≠ .tool ∧ (m.role = .assistant → m.tool_calls = none) := by
  induction l with
  | nil => simp [purgeSeg]
  | cons x rest ih =>
    simp only [purgeSeg]
    split_ifs with h1 h2
    · exact ih
    · intro m hm
      rcases List.mem_cons.mp hm with h | h
      · subst h
        refine ⟨?_, fun _ => rfl⟩
        show x.role ≠ Role.tool
        rw [h2.1]
        simp
      · exact ih m h
    · intro m hm
      rcases List.mem_cons.mp hm with h | h
      · subst h
        refine ⟨h1, fun ha => ?_⟩
        by_contra hn
        exact h2 ⟨ha, hn⟩
      · exact ih m h

theorem purgeSeg_keep_assistant (l : List Message) (m : Message)
    (h1 : m.role = .assistant) (h2 : m.tool_calls = none) :
    purgeSeg (l ++ [m]) = purgeSeg l ++ [m] := by
  rw [purgeSeg_append]
  congr 1
  simp only [purgeSeg]
  rw [if_neg (by rw [h1]; simp), if_neg (by rw [h2]; simp)]

/-- C4 counterexample: the claim is not true whenever `phase.purge`
contains other directives besides `tool-calls`: with
`purge = ["tool-calls", "previous-messages"]` the context-view messages
at indices below `k` are not left unchanged — they are removed by the
`previous-messages` slice, so index 0 of the context view changes. -/
theorem c4_counterexample :
    "tool-calls" ∈ phaseC4cex.purge
  ∧ statePrior.purged.get? 0 = some mPrior
  ∧ (run cfgX phaseC4cex oracleC1 statePrior).st.purged.get? 0 ≠ some mPrior := by
  refine ⟨by decide, by decide, by decide⟩

/-- C4 (amended): when `phase.purge` contains `tool-calls` and neither
`all-tool-calls` nor `previous-messages`, after a normally terminating
`run` the context view below the phase-start index `k` is exactly the
pre-phase context, and the portion from `k` on is the purge pass applied
to the phase's permanent-record portion: it contains no tool-role
message, and every assistant message in it keeps its content while
carrying no tool-calls field. -/
theorem c4_tool_calls_purge (cfg : RunConfig) (phase : Phase)
    (oracle : Nat → Except String (List StreamChunk)) (st0 : RunnerState)
    (hp : "tool-calls" ∈ phase.purge)
    (hna : "all-tool-calls" ∉ phase.purge)
    (hnp : "previous-messages" ∉ phase.purge)
    (he : (loopOf cfg phase oracle st0).err = none)
    (hr : (loopOf cfg phase oracle st0).round < maxRounds) :
    ((run cfg phase oracle st0).st.purged.take st0.purged.length = st0.purged)
  ∧ ((run cfg phase oracle st0).st.purged.drop st0.purged.length
      = purgeSeg ((run cfg phase oracle st0).st.messages.drop st0.messages.length))
  ∧ (∀ m ∈ (run cfg phase oracle st0).st.purged.drop st0.purged.length,
      m.role ≠ .tool ∧ (m.role = .assistant → m.tool_calls = none)) := by
  obtain ⟨δ, hδne, hδm, hδp⟩ := initState_append cfg phase st0
  obtain ⟨Δ, hΔm, hΔp⟩ := runLoop_append oracle cfg.tools maxRounds 0 ""
    (initState cfg phase st0)
  rw [show runLoop oracle cfg.tools maxRounds 0 "" (initState cfg phase st0)
      = loopOf cfg phase oracle st0 from rfl] at hΔm hΔp
  have hloopm : (loopOf cfg phase oracle st0).st.messages = st0.messages ++ (δ ++ Δ) := by
    rw [hΔm, hδm, List.append_assoc]
  have hloopp : (loopOf cfg phase oracle st0).st.purged = st0.purged ++ (δ ++ Δ) := by
    rw [hΔp, hδp, List.append_assoc]
  have hmx : ¬ maxRounds ≤ (loopOf cfg phase oracle st0).round := by omega
  have hpurged3 : applyPurges phase st0.purged.length (loopOf cfg phase oracle st0).st.purged
      = st0.purged ++ purgeSeg (δ ++ Δ) := by
    simp only [applyPurges, purgeToolCallsFromPhase, purgeAllToolCalls,
      if_pos hp, if_neg hna, if_neg hnp]
    rw [hloopp, List.take_left, List.drop_left]
  have hbase : ∀ st : RunnerState, st.messages = st0.messages ++ (δ ++ Δ) →
      st.purged = st0.purged ++ purgeSeg (δ ++ Δ) →
      (st.purged.take st0.purged.length = st0.purged
        ∧ st.purged.drop st0.purged.length
            = purgeSeg (st.messages.drop st0.messages.length)
        ∧ ∀ m ∈ st.purged.drop st0.purged.length,
            m.role ≠ .tool ∧ (m.role = .assistant → m.tool_calls = none)) := by
    intro st hm hpu
    rw [hm, hpu, List.take_left, List.drop_left, List.drop_left]
    exact ⟨rfl, rfl, purgeSeg_mem _⟩
  simp only [run, he, if_neg hmx]
  rw [hpurged3]
  unfold applyValidation
  cases hsc : phase.responseSchema with
  | none => exact hbase _ hloopm rfl
  | some sch =>
    dsimp only
    by_cases hcc : (loopOf cfg phase oracle st0).content ≠ ""
    · rw [if_pos hcc]
      cases hv : sch.validate (loopOf cfg phase oracle st0).content with
      | none => exact hbase _ hloopm rfl
      | some canon =>
        dsimp only
        obtain ⟨p, q, hpm, hqp⟩ := runLoop_break_last oracle cfg.tools maxRounds 0 ""
          (initState cfg phase st0) (by omega) he hr hcc
        rw [show runLoop oracle cfg.tools maxRounds 0 "" (initState cfg phase st0)
            = loopOf cfg phase oracle st0 from rfl] at hpm hqp
        have hSig : δ ++ Δ = (δ ++ p)
            ++ [assistantMsgOf (loopOf cfg phase oracle st0).content] := by
          have h0 : st0.messages ++ (δ ++ Δ)
              = st0.messages ++ ((δ ++ p)
                  ++ [assistantMsgOf (loopOf cfg phase oracle st0).content]) := by
            rw [← hloopm, hpm, hδm]
            simp [List.append_assoc]
          exact List.append_cancel_left h0
        have hA : (assistantMsgOf (loopOf cfg phase oracle st0).content).role
            = Role.assistant := rfl
        have hAtc : (assistantMsgOf (loopOf cfg phase oracle st0).content).tool_calls
            = none := rfl
        have hps : purgeSeg (δ ++ Δ)
            = purgeSeg (δ ++ p) ++ [assistantMsgOf (loopOf cfg phase oracle st0).content] := by
          rw [hSig, purgeSeg_keep_assistant _ _ hA hAtc]
        have hgl : (st0.purged ++ purgeSeg (δ ++ Δ)).getLast?
            = (loopOf cfg phase oracle st0).st.messages.getLast? := by
          rw [hps, hloopm, hSig, ← List.append_assoc, ← List.append_assoc,
            List.getLast?_concat, List.getLast?_concat]
        rw [if_pos hgl]
        have hpF : updateLastContent (st0.purged ++ purgeSeg (δ ++ Δ)) canon
            = st0.purged ++ (purgeSeg (δ ++ p) ++ [assistantMsgOf canon]) := by
          rw [hps, ← List.append_assoc, updateLastContent_concat _ _ _ hA]
          simp only [List.append_assoc]
          rfl
        have hmF : updateLastContent (loopOf cfg phase oracle st0).st.messages canon
            = st0.messages ++ ((δ ++ p) ++ [assistantMsgOf canon]) := by
          rw [hloopm, hSig, ← List.append_assoc, updateLastContent_concat _ _ _ hA]
          simp only [List.append_assoc]
          rfl
        refine ⟨?_, ?_, ?_⟩
        · show (updateLastContent (st0.purged ++ purgeSeg (δ ++ Δ)) canon).take
              st0.purged.length = st0.purged
          rw [hpF]
          exact List.take_left st0.purged _
        · show (updateLastContent (st0.purged ++ purgeSeg (δ ++ Δ)) canon).drop
              st0.purged.length
            = purgeSeg ((updateLastContent (loopOf cfg phase oracle st0).st.messages
                canon).drop st0.messages.length)
          rw [hpF, hmF, List.drop_left, List.drop_left,
            purgeSeg_keep_assistant _ _ rfl rfl]
        · show ∀ m ∈ (updateLastContent (st0.purged ++ purgeSeg (δ ++ Δ)) canon).drop
              st0.purged.length,
            m.role ≠ .tool ∧ (m.role = .assistant → m.tool_calls = none)
          rw [hpF, List.drop_left]
          intro m hm
          rcases List.mem_append.mp hm with h | h
          · exact purgeSeg_mem _ m h
          · rw [List.mem_singleton.mp h]
            exact ⟨by simp [assistantMsgOf], fun _ => rfl⟩
    · rw [if_neg hcc]
      exact hbase _ hloopm rfl

/-- C4 witness: the amended purge conclusions instantiated on a concrete
first-phase run with `purge = ["tool-calls"]`, all hypotheses discharged
by computation. -/
theorem c4_witness :
    (run cfgX phaseC4 oracleC1 emptyState).st.purged.take emptyState.purged.length
      = emptyState.purged
  ∧ (run cfgX phaseC4 oracleC1 emptyState).st.purged.drop emptyState.purged.length
      = purgeSeg ((run cfgX phaseC4 oracleC1 emptyState).st.messages.drop
          emptyState.messages.length) := by
  have h := c4_tool_calls_purge cfgX phaseC4 oracleC1 emptyState (by decide) (by decide)
    (by decide) (by decide) (by decide)
  exact ⟨h.1, h.2.1⟩

/-!  Claim C10. -/

/-- C10: the user message `run` appends to both the permanent record and
the context view has content equal to the template-rendered prompt
followed by two newline characters and, when the phase declares a
response schema, the fixed format instruction embedding the schema text;
the content is never exactly the rendered prompt alone.  The message
sits right after the pre-run record (after the system message when this
is the first run) in the permanent record, and at the corresponding
position of the context view as built by the loop. -/
theorem c10_user_message_format (cfg : RunConfig) (phase : Phase)
    (oracle : Nat → Except String (List StreamChunk)) (st0 : RunnerState) :
    (userMessageOf cfg phase).content
      = replaceTemplateVariables phase.prompt cfg.templateOptions cfg.currentDate
        ++ "\n\n" ++ mkFormatPrompt phase
  ∧ (userMessageOf cfg phase).content
      ≠ replaceTemplateVariables phase.prompt cfg.templateOptions cfg.currentDate
  ∧ (run cfg phase oracle st0).st.messages.get?
      (st0.messages.length + (if st0.messages.length = 0 then 1 else 0))
      = some (userMessageOf cfg phase)
  ∧ (loopOf cfg phase oracle st0).st.purged.get?
      (st0.purged.length + (if st0.messages.length = 0 then 1 else 0))
      = some (userMessageOf cfg phase) := by
  obtain ⟨Δ, hΔm, hΔp⟩ := runLoop_append oracle cfg.tools maxRounds 0 ""
    (initState cfg phase st0)
  rw [show runLoop oracle cfg.tools maxRounds 0 "" (initState cfg phase st0)
      = loopOf cfg phase oracle st0 from rfl] at hΔm hΔp
  have main : ∀ pre : List Message,
      (initState cfg phase st0).messages = pre ++ [userMessageOf cfg phase] →
      (run cfg phase oracle st0).st.messages.get? pre.length
        = some (userMessageOf cfg phase) := by
    intro pre hpre
    have hloopm : (loopOf cfg phase oracle st0).st.messages
        = pre ++ ([userMessageOf cfg phase] ++ Δ) := by
      rw [hΔm, hpre, List.append_assoc]
    have hgl : (loopOf cfg phase oracle st0).st.messages.get? pre.length
        = some (userMessageOf cfg phase) := by
      rw [hloopm, List.get?_append_right (le_refl _)]
      simp
    rcases run_messages_cases cfg phase oracle st0 with hm | ⟨p, m, c, h1, h2, h3⟩
    · rw [hm]
      exact hgl
    · rw [h1] at hgl
      by_cases hip : pre.length < p.length
      · rw [h3, List.get?_append hip]
        rw [List.get?_append hip] at hgl
        exact hgl
      · exfalso
        have hge : p.length ≤ pre.length := Nat.le_of_not_lt hip
        rw [List.get?_append_right hge] at hgl
        have hz : pre.length - p.length = 0 := by
          cases hk : pre.length - p.length with
          | zero => rfl
          | succ kk =>
            rw [hk] at hgl
            simp at hgl
        rw [hz] at hgl
        simp at hgl
        rw [hgl] at h2
        simp [userMessageOf] at h2
  have mainP : ∀ pre : List Message,
      (initState cfg phase st0).purged = pre ++ [userMessageOf cfg phase] →
      (loopOf cfg phase oracle st0).st.purged.get? pre.length
        = some (userMessageOf cfg phase) := by
    intro pre hpre
    rw [hΔp, hpre, List.append_assoc, List.get?_append_right (le_refl _)]
    simp
  refine ⟨rfl, ?_, ?_, ?_⟩
  · intro heq
    have hcon : (userMessageOf cfg phase).content
        = replaceTemplateVariables phase.prompt cfg.templateOptions cfg.currentDate
          ++ "\n\n" ++ mkFormatPrompt phase := rfl
    rw [hcon] at heq
    have hlen := congrArg String.length heq
    rw [String.length_append, String.length_append] at hlen
    have h2 : ("\n\n" : String).length = 2 := rfl
    omega
  · by_cases h0 : st0.messages.length = 0
    · rw [if_pos h0]
      have h := main (st0.messages ++ [Message.mk .system
        (replaceTemplateVariables cfg.systemPrompt cfg.templateOptions cfg.currentDate)
        none none none]) (by simp only [initState, if_pos h0])
      simpa using h
    · rw [if_neg h0]
      have h := main st0.messages (by simp only [initState, if_neg h0])
      simpa using h
  · by_cases h0 : st0.messages.length = 0
    · rw [if_pos h0]
      have h := mainP (st0.purged ++ [Message.mk .system
        (replaceTemplateVariables cfg.systemPrompt cfg.templateOptions cfg.currentDate)
        none none none]) (by simp only [initState, if_pos h0])
      simpa using h
    · rw [if_neg h0]
      have h := mainP st0.purged (by simp only [initState, if_neg h0])
      simpa using h

/-- C10 witness: the user-message conclusions instantiated on a concrete
first-phase run (the message sits at index 1, after the system message),
with the position and inequality conclusions extracted. -/
theorem c10_witness :
    (run cfgX phaseX oracleC1 emptyState).st.messages.get? 1
      = some (userMessageOf cfgX phaseX)
  ∧ (userMessageOf cfgX phaseX).content
      ≠ replaceTemplateVariables phaseX.prompt cfgX.templateOptions cfgX.currentDate := by
  have h := c10_user_message_format cfgX phaseX oracleC1 emptyState
  exact ⟨h.2.2.1, h.2.1⟩

end MarkdownAgent
